import Mathlib

/-!
Verification of the quicksort code in `Lab Four/main.c` of the repository
Nathan-Hoover/IntroductiontoParallelProgrammingLabs.

The C program sorts an array of `int` with a Hoare-partition quicksort, in a
sequential version (`QuickSort`, called by `sort_s`) and a parallel version
(`QuickSort_Parallel`, called by `sort_p`) that spawns the two recursive calls
as OpenMP tasks once the range size reaches the constant `Cut_Off`.

Shallow embedding used here:
- the array is a `List Int`; C `int` values are unbounded `Int` (the program
  only moves values around, so no arithmetic overflow on elements can occur);
- array indices are `Int` (the C code lets the scan indices reach `left - 1`
  and `right + 1`, which can be `-1`);
- every array access goes through `geti` / `seti`, which return `none` on an
  out-of-bounds index: an out-of-bounds C access is undefined behaviour, so
  the whole computation is modelled as `none` in that case;
- the pivot index `(left + right) / 2` uses C division, which truncates
  toward zero: this is `Int.tdiv`, not Lean's `/` on `Int`;
- the OpenMP tasks of `QuickSort_Parallel` run on disjoint index ranges, so
  executing them one after the other is a faithful model of every
  interleaving; the task branch is embedded as sequential composition.
-/

/-- Read `a[i]`, `none` when `i` is outside the array. -/
def geti (a : List Int) (i : Int) : Option Int :=
  if i < 0 then none else a.get? i.toNat

/-- Write `a[i] := v`, `none` when `i` is outside the array. -/
def seti (a : List Int) (i : Int) (v : Int) : Option (List Int) :=
  if i < 0 then none
  else if _h : i.toNat < a.length then some (a.set i.toNat v) else none

/-- Total read used to state properties: value of `a[i]`, defaulting to `0`. -/
def getv (a : List Int) (i : Int) : Int :=
  (geti a i).getD 0

/-- C integer division by 2 when the numerator may be negative: C division
truncates toward zero, which is `Int.tdiv`. -/
def cdiv2 (n : Int) : Int :=
  Int.tdiv n 2

theorem geti_some_bounds {a : List Int} {i v : Int}
    (h : geti a i = some v) : 0 ≤ i ∧ i.toNat < a.length := by
  unfold geti at h
  split at h
  · exact absurd h (by simp)
  · refine ⟨by omega, ?_⟩
    by_contra hc
    rw [List.get?_eq_none.mpr (by omega)] at h
    exact Option.noConfusion h

theorem geti_isSome_of_bounds {a : List Int} {i : Int}
    (h0 : 0 ≤ i) (h1 : i < (a.length : Int)) : (geti a i).isSome := by
  unfold geti
  rw [if_neg (by omega)]
  have hlt : i.toNat < a.length := by omega
  rw [List.get?_eq_get hlt]
  rfl

theorem geti_eq_getElem {a : List Int} {i : Int}
    (h0 : 0 ≤ i) (h1 : i.toNat < a.length) :
    geti a i = some (a.get ⟨i.toNat, h1⟩) := by
  unfold geti
  rw [if_neg (by omega), List.get?_eq_get h1]

theorem getv_eq_of_geti {a : List Int} {i v : Int}
    (h : geti a i = some v) : getv a i = v := by
  unfold getv
  rw [h]
  rfl

theorem seti_some_of_bounds {a : List Int} {i : Int} (v : Int)
    (h0 : 0 ≤ i) (h1 : i.toNat < a.length) :
    seti a i v = some (a.set i.toNat v) := by
  unfold seti
  rw [if_neg (by omega), dif_pos h1]

theorem seti_some_iff {a : List Int} {i v : Int} {b : List Int}
    (h : seti a i v = some b) :
    0 ≤ i ∧ i.toNat < a.length ∧ b = a.set i.toNat v := by
  unfold seti at h
  by_cases h0 : i < 0
  · rw [if_pos h0] at h
    exact absurd h (by simp)
  · rw [if_neg h0] at h
    by_cases h1 : i.toNat < a.length
    · rw [dif_pos h1] at h
      exact ⟨by omega, h1, (Option.some.inj h).symm⟩
    · rw [dif_neg h1] at h
      exact absurd h (by simp)

theorem geti_set_self {a : List Int} {i : Int} {v : Int}
    (h0 : 0 ≤ i) (h1 : i.toNat < a.length) :
    geti (a.set i.toNat v) i = some v := by
  unfold geti
  rw [if_neg (by omega)]
  rw [List.get?_eq_get (by simpa using h1)]
  simp

theorem geti_set_ne {a : List Int} {i : Int} (v : Int) {k : Int}
    (hi : 0 ≤ i) (hne : k ≠ i) : geti (a.set i.toNat v) k = geti a k := by
  unfold geti
  by_cases hk : k < 0
  · rw [if_pos hk, if_pos hk]
  · rw [if_neg hk, if_neg hk]
    have hne2 : i.toNat ≠ k.toNat := by omega
    by_cases hkl : k.toNat < a.length
    · have hkl2 : k.toNat < (a.set i.toNat v).length := by
        rw [List.length_set]
        exact hkl
      rw [List.get?_eq_get hkl2, List.get?_eq_get hkl]
      have : (a.set i.toNat v).get ⟨k.toNat, hkl2⟩ = a.get ⟨k.toNat, hkl⟩ := by
        simp [List.getElem_set, hne2]
      rw [this]
    · have hkl2 : ¬ k.toNat < (a.set i.toNat v).length := by
        rw [List.length_set]
        exact hkl
      rw [List.get?_eq_none.mpr (by omega), List.get?_eq_none.mpr (by omega)]

/-- Forward scan of the partition loop of `QuickSort` (main.c lines 34-37):
starting at index `i`, advance while `arr[i] < pivot`; return the index where
the scan stops. `none` models the undefined behaviour of reading outside the
array. -/
def scanLt (a : List Int) (pivot i : Int) : Option Int :=
  match h : geti a i with
  | none => none
  | some v => if v < pivot then scanLt a pivot (i + 1) else some i
termination_by a.length - i.toNat
decreasing_by
  have hb := geti_some_bounds h
  omega

/-- Backward scan of the partition loop of `QuickSort` (main.c lines 38-41):
starting at index `j`, move down while `arr[j] > pivot`. -/
def scanGt (a : List Int) (pivot j : Int) : Option Int :=
  match h : geti a j with
  | none => none
  | some v => if pivot < v then scanGt a pivot (j - 1) else some j
termination_by (j + 1).toNat
decreasing_by
  have hb := geti_some_bounds h
  omega

theorem scanLt_eq_none {a : List Int} {pivot i : Int}
    (hg : geti a i = none) : scanLt a pivot i = none := by
  rw [scanLt.eq_def, hg]

theorem scanLt_eq_step {a : List Int} {pivot i v : Int}
    (hg : geti a i = some v) (hv : v < pivot) :
    scanLt a pivot i = scanLt a pivot (i + 1) := by
  rw [scanLt.eq_def, hg]
  dsimp only
  rw [if_pos hv]

theorem scanLt_eq_stop {a : List Int} {pivot i v : Int}
    (hg : geti a i = some v) (hv : ¬ v < pivot) :
    scanLt a pivot i = some i := by
  rw [scanLt.eq_def, hg]
  dsimp only
  rw [if_neg hv]

theorem scanGt_eq_none {a : List Int} {pivot j : Int}
    (hg : geti a j = none) : scanGt a pivot j = none := by
  rw [scanGt.eq_def, hg]

theorem scanGt_eq_step {a : List Int} {pivot j v : Int}
    (hg : geti a j = some v) (hv : pivot < v) :
    scanGt a pivot j = scanGt a pivot (j - 1) := by
  rw [scanGt.eq_def, hg]
  dsimp only
  rw [if_pos hv]

theorem scanGt_eq_stop {a : List Int} {pivot j v : Int}
    (hg : geti a j = some v) (hv : ¬ pivot < v) :
    scanGt a pivot j = some j := by
  rw [scanGt.eq_def, hg]
  dsimp only
  rw [if_neg hv]

/-- Full characterisation of a successful forward scan: the scan moves
forward, the stop index carries a value that is not below the pivot, and
every index passed over carries a value below the pivot. -/
theorem scanLt_spec {a : List Int} {pivot i i1 : Int}
    (h : scanLt a pivot i = some i1) :
    i ≤ i1 ∧ (∃ v, geti a i1 = some v ∧ ¬ v < pivot) ∧
      ∀ k, i ≤ k → k < i1 → ∃ v, geti a k = some v ∧ v < pivot := by
  induction i using scanLt.induct a pivot with
  | case1 x hg =>
    rw [scanLt_eq_none hg] at h
    exact absurd h (by simp)
  | case2 x v hg hv ih =>
    rw [scanLt_eq_step hg hv] at h
    obtain ⟨ih1, ih2, ih3⟩ := ih h
    refine ⟨by omega, ih2, ?_⟩
    intro k hk1 hk2
    by_cases hkx : k = x
    · subst hkx
      exact ⟨v, hg, hv⟩
    · exact ih3 k (by omega) hk2
  | case3 x v hg hv =>
    rw [scanLt_eq_stop hg hv] at h
    have h2 := Option.some.inj h
    subst h2
    exact ⟨le_refl x, ⟨v, hg, hv⟩, by intro k hk1 hk2; omega⟩

/-- Full characterisation of a successful backward scan. -/
theorem scanGt_spec {a : List Int} {pivot j j1 : Int}
    (h : scanGt a pivot j = some j1) :
    j1 ≤ j ∧ (∃ v, geti a j1 = some v ∧ ¬ pivot < v) ∧
      ∀ k, j1 < k → k ≤ j → ∃ v, geti a k = some v ∧ pivot < v := by
  induction j using scanGt.induct a pivot with
  | case1 x hg =>
    rw [scanGt_eq_none hg] at h
    exact absurd h (by simp)
  | case2 x v hg hv ih =>
    rw [scanGt_eq_step hg hv] at h
    obtain ⟨ih1, ih2, ih3⟩ := ih h
    refine ⟨by omega, ih2, ?_⟩
    intro k hk1 hk2
    by_cases hkx : k = x
    · subst hkx
      exact ⟨v, hg, hv⟩
    · exact ih3 k hk1 (by omega)
  | case3 x v hg hv =>
    rw [scanGt_eq_stop hg hv] at h
    have h2 := Option.some.inj h
    subst h2
    exact ⟨le_refl x, ⟨v, hg, hv⟩, by intro k hk1 hk2; omega⟩

theorem scanLt_mono {a : List Int} {pivot i i1 : Int}
    (h : scanLt a pivot i = some i1) : i ≤ i1 :=
  (scanLt_spec h).1

theorem scanGt_mono {a : List Int} {pivot j j1 : Int}
    (h : scanGt a pivot j = some j1) : j1 ≤ j ∧ 0 ≤ j1 := by
  obtain ⟨h1, ⟨v, hv, _⟩, _⟩ := scanGt_spec h
  have := geti_some_bounds hv
  omega

/-- A forward scan that starts in the array and has a stopper ahead of it
succeeds and stops at or before the stopper. -/
theorem scanLt_le_stopper {a : List Int} {pivot i m v : Int}
    (hm : geti a m = some v) (hv : ¬ v < pivot) (hi : 0 ≤ i) (him : i ≤ m) :
    ∃ i1, scanLt a pivot i = some i1 ∧ i1 ≤ m := by
  induction i using scanLt.induct a pivot with
  | case1 x hg =>
    have hb := geti_some_bounds hm
    have hs : (geti a x).isSome := geti_isSome_of_bounds (by omega) (by omega)
    rw [hg] at hs
    exact absurd hs (by simp)
  | case2 x v2 hg hv2 ih =>
    by_cases hxeq : x = m
    · subst hxeq
      rw [hg] at hm
      have := Option.some.inj hm
      exact absurd hv2 (by omega)
    · obtain ⟨i1, hi1, hi1m⟩ := ih (by omega) (by omega)
      exact ⟨i1, by rw [scanLt_eq_step hg hv2]; exact hi1, hi1m⟩
  | case3 x v2 hg hv2 =>
    exact ⟨x, scanLt_eq_stop hg hv2, him⟩

/-- A backward scan that starts in the array and has a stopper below it
succeeds and stops at or after the stopper. -/
theorem scanGt_ge_stopper {a : List Int} {pivot j m v : Int}
    (hm : geti a m = some v) (hv : ¬ pivot < v) (hj : j < (a.length : Int))
    (hmj : m ≤ j) : ∃ j1, scanGt a pivot j = some j1 ∧ m ≤ j1 := by
  induction j using scanGt.induct a pivot with
  | case1 x hg =>
    have hb := geti_some_bounds hm
    have hs : (geti a x).isSome := geti_isSome_of_bounds (by omega) (by omega)
    rw [hg] at hs
    exact absurd hs (by simp)
  | case2 x v2 hg hv2 ih =>
    by_cases hxeq : x = m
    · subst hxeq
      rw [hg] at hm
      have := Option.some.inj hm
      exact absurd hv2 (by omega)
    · obtain ⟨j1, hj1, hmj1⟩ := ih (by omega) (by omega)
      exact ⟨j1, by rw [scanGt_eq_step hg hv2]; exact hj1, hmj1⟩
  | case3 x v2 hg hv2 =>
    exact ⟨x, scanGt_eq_stop hg hv2, hmj⟩

theorem set_self_eq {a : List Int} {n : Nat} (h : n < a.length) :
    a.set n a[n] = a := by
  apply List.ext_get
  · simp
  · intro k h1 h2
    rcases eq_or_ne n k with he | hne
    · subst he
      simp
    · simp [List.getElem_set, hne]

theorem swap_count (x : Int) {a : List Int} {i j : Nat}
    (hi : i < a.length) (hj : j < a.length) :
    List.count x ((a.set i a[j]).set j a[i]) = List.count x a := by
  have hj2 : j < (a.set i a[j]).length := by simpa using hj
  rw [List.count_set a[i] x (a.set i a[j]) j hj2]
  rw [List.count_set a[j] x a i hi]
  have hval : (a.set i a[j])[j] = a[j] := by
    rcases eq_or_ne i j with he | hne
    · subst he
      simp
    · simp [List.getElem_set, hne]
  rw [hval]
  have hmi : a[i] ∈ a := List.getElem_mem hi
  have hmj : a[j] ∈ a := List.getElem_mem hj
  by_cases h1 : a[i] = x
  · have hc1 : 1 ≤ List.count x a := by
      rw [List.one_le_count_iff]
      rw [h1] at hmi
      exact hmi
    by_cases h2 : a[j] = x
    · simp [h1, h2]
      omega
    · simp [h1, h2]
      omega
  · by_cases h2 : a[j] = x
    · have hc2 : 1 ≤ List.count x a := by
        rw [List.one_le_count_iff]
        rw [h2] at hmj
        exact hmj
      simp [h1, h2]
    · simp [h1, h2]

theorem swap_perm {a : List Int} {i j : Nat}
    (hi : i < a.length) (hj : j < a.length) :
    ((a.set i a[j]).set j a[i]).Perm a := by
  rw [List.perm_iff_count]
  intro x
  exact swap_count x hi hj

/-- The partition loop of `QuickSort` (main.c lines 32-50).  State is the
array with the two scan indices.  Each iteration runs the forward scan from
`i` and the backward scan from `j`; when the scans stop at `i1 ≤ j1` the
code swaps `arr[i1]` and `arr[j1]` through `tmp` and continues from
`(i1 + 1, j1 - 1)`; otherwise the loop exits.  Returns the mutated array and
the final values of `(i, j)`.  The loop body of `QuickSort_Parallel`
(main.c lines 90-108) is character for character the same code, so the one
embedding serves both functions. -/
def hoareLoop (a : List Int) (pivot i j : Int) : Option (List Int × Int × Int) :=
  if h0 : i ≤ j then
    match h1 : scanLt a pivot i, h2 : scanGt a pivot j with
    | some i1, some j1 =>
      if i1 ≤ j1 then
        match geti a i1, geti a j1 with
        | some vi, some vj =>
          match seti a i1 vj with
          | some a1 =>
            match seti a1 j1 vi with
            | some a2 => hoareLoop a2 pivot (i1 + 1) (j1 - 1)
            | none => none
          | none => none
        | _, _ => none
      else some (a, i1, j1)
    | _, _ => none
  else some (a, i, j)
termination_by (j - i + 1).toNat
decreasing_by
  have hi := scanLt_mono h1
  have hj := (scanGt_mono h2).1
  omega

theorem hoareLoop_eq_exit {a : List Int} {pivot i j : Int} (h0 : ¬ i ≤ j) :
    hoareLoop a pivot i j = some (a, i, j) := by
  rw [hoareLoop.eq_def, dif_neg h0]

theorem hoareLoop_eq_stop {a : List Int} {pivot i j i1 j1 : Int}
    (h0 : i ≤ j) (h1 : scanLt a pivot i = some i1)
    (h2 : scanGt a pivot j = some j1) (h3 : ¬ i1 ≤ j1) :
    hoareLoop a pivot i j = some (a, i1, j1) := by
  rw [hoareLoop.eq_def, dif_pos h0, h1, h2]
  dsimp only
  rw [if_neg h3]

theorem hoareLoop_eq_swap {a : List Int} {pivot i j i1 j1 vi vj : Int}
    {a1 a2 : List Int}
    (h0 : i ≤ j) (h1 : scanLt a pivot i = some i1)
    (h2 : scanGt a pivot j = some j1) (h3 : i1 ≤ j1)
    (h4 : geti a i1 = some vi) (h5 : geti a j1 = some vj)
    (h6 : seti a i1 vj = some a1) (h7 : seti a1 j1 vi = some a2) :
    hoareLoop a pivot i j = hoareLoop a2 pivot (i1 + 1) (j1 - 1) := by
  rw [hoareLoop.eq_def, dif_pos h0, h1, h2]
  dsimp only
  rw [if_pos h3, h4, h5]
  dsimp only
  rw [h6]
  dsimp only
  rw [h7]

/-- Main characterisation of a successful partition loop, relative to the
entry state `(a, i, j)`: the final array is a permutation of the input,
nothing outside the entry window `[i, j]` moves, the final scan indices
cross (`j2 < i2`) and stay on their own sides of the entry window, every
slot strictly left of the final forward index holds a value at most the
pivot, every slot strictly right of the final backward index holds a value
at least the pivot, and every slot of `[i, j]` afterwards holds a value that
some slot of `[i, j]` held before. -/
theorem hoareLoop_main {a : List Int} {pivot i j : Int}
    {a1 : List Int} {i2 j2 : Int}
    (h : hoareLoop a pivot i j = some (a1, i2, j2)) :
    a1.Perm a ∧ j2 < i2 ∧ i ≤ i2 ∧ j2 ≤ j ∧
      (∀ k, k < i ∨ j < k → geti a1 k = geti a k) ∧
      (∀ k, i ≤ k → k < i2 → getv a1 k ≤ pivot) ∧
      (∀ k, j2 < k → k ≤ j → pivot ≤ getv a1 k) ∧
      (∀ k, i ≤ k → k ≤ j → ∃ k2, i ≤ k2 ∧ k2 ≤ j ∧ geti a1 k = geti a k2) := by
  induction a, pivot, i, j using hoareLoop.induct with
  | case1 a pivot i j h0 i1 j1 h1 h2 h3 vi vj h5 h4 a1' h6 a2' h7 ih =>
    rw [hoareLoop_eq_swap h0 h1 h2 h3 h4 h5 h6 h7] at h
    obtain ⟨ihPerm, ihLt, ihM1, ihM2, ihFrame, ihLe, ihGe, ihRange⟩ := ih h
    obtain ⟨hsc1, ⟨vs, hvs, hvge⟩, hscan1⟩ := scanLt_spec h1
    obtain ⟨hsc2, ⟨ws, hws, hwle⟩, hscan2⟩ := scanGt_spec h2
    rw [h4] at hvs
    have hvieq : vi = vs := Option.some.inj hvs
    subst hvieq
    rw [h5] at hws
    have hvjeq : vj = ws := Option.some.inj hws
    subst hvjeq
    obtain ⟨hb1a, hb1b, ha1'⟩ := seti_some_iff h6
    obtain ⟨hb2a, hb2b, ha2'⟩ := seti_some_iff h7
    subst ha1'
    subst ha2'
    have hb2b' : j1.toNat < a.length := by
      rw [List.length_set] at hb2b
      exact hb2b
    have hg_j1 : geti ((a.set i1.toNat vj).set j1.toNat vi) j1 = some vi :=
      geti_set_self hb2a hb2b
    have hg_i1 : geti ((a.set i1.toNat vj).set j1.toNat vi) i1 = some vj := by
      by_cases hij : i1 = j1
      · subst hij
        have hvv : vi = vj := by
          rw [h4] at h5
          exact Option.some.inj h5
        rw [List.set_set, hvv]
        exact geti_set_self hb1a hb1b
      · rw [geti_set_ne vi hb2a hij, geti_set_self hb1a hb1b]
    have hg_other :
        ∀ k, k ≠ i1 → k ≠ j1 →
          geti ((a.set i1.toNat vj).set j1.toNat vi) k = geti a k := by
      intro k hk1 hk2
      rw [geti_set_ne vi hb2a hk2, geti_set_ne vj hb1a hk1]
    have hperm2 : ((a.set i1.toNat vj).set j1.toNat vi).Perm a := by
      have hvival : vi = a[i1.toNat] := by
        have hx := geti_eq_getElem hb1a hb1b
        rw [h4] at hx
        simpa using Option.some.inj hx
      have hvjval : vj = a[j1.toNat] := by
        have hx := geti_eq_getElem hb2a hb2b'
        rw [h5] at hx
        simpa using Option.some.inj hx
      rw [hvival, hvjval]
      exact swap_perm hb1b hb2b'
    refine ⟨ihPerm.trans hperm2, ihLt, by omega, by omega, ?_, ?_, ?_, ?_⟩
    · intro k hk
      have hk1 : k < i1 + 1 ∨ j1 - 1 < k := by omega
      rw [ihFrame k hk1]
      exact hg_other k (by omega) (by omega)
    · intro k hk1 hk2
      by_cases hklt : k < i1
      · have he : geti a1 k = geti a k := by
          rw [ihFrame k (by omega)]
          exact hg_other k (by omega) (by omega)
        obtain ⟨v, hv, hvlt⟩ := hscan1 k hk1 hklt
        rw [hv] at he
        rw [getv_eq_of_geti he]
        omega
      · by_cases hkeq : k = i1
        · subst hkeq
          have he : geti a1 k = some vj := by
            rw [ihFrame k (by omega)]
            exact hg_i1
          rw [getv_eq_of_geti he]
          omega
        · exact ihLe k (by omega) hk2
    · intro k hk1 hk2
      by_cases hkgt : j1 < k
      · have he : geti a1 k = geti a k := by
          rw [ihFrame k (by omega)]
          exact hg_other k (by omega) (by omega)
        obtain ⟨v, hv, hvgt⟩ := hscan2 k hkgt hk2
        rw [hv] at he
        rw [getv_eq_of_geti he]
        omega
      · by_cases hkeq : k = j1
        · subst hkeq
          have he : geti a1 k = some vi := by
            rw [ihFrame k (by omega)]
            exact hg_j1
          rw [getv_eq_of_geti he]
          omega
        · exact ihGe k hk1 (by omega)
    · intro k hk1 hk2
      by_cases hklt : k < i1
      · refine ⟨k, hk1, hk2, ?_⟩
        rw [ihFrame k (by omega)]
        exact hg_other k (by omega) (by omega)
      · by_cases hkeq : k = i1
        · subst hkeq
          refine ⟨j1, by omega, by omega, ?_⟩
          rw [ihFrame k (by omega), hg_i1, h5]
        · by_cases hkeq2 : k = j1
          · subst hkeq2
            refine ⟨i1, by omega, by omega, ?_⟩
            rw [ihFrame k (by omega), hg_j1, h4]
          · by_cases hkgt : j1 < k
            · refine ⟨k, hk1, hk2, ?_⟩
              rw [ihFrame k (by omega)]
              exact hg_other k (by omega) (by omega)
            · obtain ⟨k2, hk2a, hk2b, hk2c⟩ := ihRange k (by omega) (by omega)
              refine ⟨k2, by omega, by omega, ?_⟩
              rw [hk2c]
              exact hg_other k2 (by omega) (by omega)
  | case2 a pivot i j h0 i1 j1 h1 h2 h3 vi vj h5 h4 a1' h6 h7 =>
    obtain ⟨hb1a, hb1b, ha1'⟩ := seti_some_iff h6
    obtain ⟨hj0, hjl⟩ := geti_some_bounds h5
    have : seti a1' j1 vi = some (a1'.set j1.toNat vi) := by
      refine seti_some_of_bounds vi hj0 ?_
      rw [ha1', List.length_set]
      exact hjl
    rw [h7] at this
    exact absurd this (by simp)
  | case3 a pivot i j h0 i1 j1 h1 h2 h3 vi vj h5 h4 h6 =>
    obtain ⟨hi0, hil⟩ := geti_some_bounds h4
    have : seti a i1 vj = some (a.set i1.toNat vj) := seti_some_of_bounds vj hi0 hil
    rw [h6] at this
    exact absurd this (by simp)
  | case4 a pivot i j h0 i1 j1 h1 h2 h3 h4 =>
    obtain ⟨hsc1, ⟨vs, hvs, hvge⟩, hscan1⟩ := scanLt_spec h1
    obtain ⟨hsc2, ⟨ws, hws, hwle⟩, hscan2⟩ := scanGt_spec h2
    exact absurd (h4 vs ws hvs hws) (by simp)
  | case5 a pivot i j h0 i1 j1 h1 h2 h3 =>
    rw [hoareLoop_eq_stop h0 h1 h2 h3] at h
    have h' := Option.some.inj h
    rw [Prod.mk.injEq, Prod.mk.injEq] at h'
    obtain ⟨rfl, rfl, rfl⟩ := h'
    obtain ⟨hsc1, ⟨vs, hvs, hvge⟩, hscan1⟩ := scanLt_spec h1
    obtain ⟨hsc2, ⟨ws, hws, hwle⟩, hscan2⟩ := scanGt_spec h2
    refine ⟨List.Perm.refl _, by omega, hsc1, hsc2, ?_, ?_, ?_, ?_⟩
    · intro k hk
      rfl
    · intro k hk1 hk2
      obtain ⟨v, hv, hvlt⟩ := hscan1 k hk1 hk2
      rw [getv_eq_of_geti hv]
      omega
    · intro k hk1 hk2
      obtain ⟨v, hv, hvgt⟩ := hscan2 k hk1 hk2
      rw [getv_eq_of_geti hv]
      omega
    · intro k hk1 hk2
      exact ⟨k, hk1, hk2, rfl⟩
  | case6 a pivot i j h0 hfail =>
    rw [hoareLoop.eq_def, dif_pos h0] at h
    rcases hs1 : scanLt a pivot i with _ | i1
    · rw [hs1] at h
      dsimp only at h
      exact absurd h (by simp)
    · rcases hs2 : scanGt a pivot j with _ | j1
      · rw [hs1, hs2] at h
        dsimp only at h
        exact absurd h (by simp)
      · exact absurd (hfail i1 j1 hs1 hs2) (by simp)
  | case7 a pivot i j h0 =>
    rw [hoareLoop_eq_exit h0] at h
    have h' := Option.some.inj h
    rw [Prod.mk.injEq, Prod.mk.injEq] at h'
    obtain ⟨rfl, rfl, rfl⟩ := h'
    refine ⟨List.Perm.refl _, by omega, le_refl _, le_refl _, ?_, ?_, ?_, ?_⟩
    · intro k hk
      rfl
    · intro k hk1 hk2
      omega
    · intro k hk1 hk2
      omega
    · intro k hk1 hk2
      exact absurd (le_trans hk1 hk2) h0

/-- Range-checked read used to state the access-safety claim: like `geti`,
but additionally fails when the index falls outside the window `[lo, hi]`.
Running the partition loop with `getiR`/`setiR` in place of `geti`/`seti`
and obtaining `some` proves that every access stayed inside the window. -/
def getiR (lo hi : Int) (a : List Int) (i : Int) : Option Int :=
  if i < lo ∨ hi < i then none else geti a i

/-- Range-checked write, companion of `getiR`. -/
def setiR (lo hi : Int) (a : List Int) (i : Int) (v : Int) : Option (List Int) :=
  if i < lo ∨ hi < i then none else seti a i v

theorem getiR_some {lo hi : Int} {a : List Int} {i v : Int}
    (h : getiR lo hi a i = some v) :
    lo ≤ i ∧ i ≤ hi ∧ geti a i = some v := by
  unfold getiR at h
  split at h
  · exact absurd h (by simp)
  · refine ⟨by omega, by omega, h⟩

theorem getiR_eq_of_bounds {lo hi : Int} {a : List Int} {i : Int}
    (h1 : lo ≤ i) (h2 : i ≤ hi) : getiR lo hi a i = geti a i := by
  unfold getiR
  rw [if_neg (by omega)]

theorem setiR_some {lo hi : Int} {a : List Int} {i v : Int} {b : List Int}
    (h : setiR lo hi a i v = some b) :
    lo ≤ i ∧ i ≤ hi ∧ seti a i v = some b := by
  unfold setiR at h
  split at h
  · exact absurd h (by simp)
  · refine ⟨by omega, by omega, h⟩

theorem setiR_eq_of_bounds {lo hi : Int} {a : List Int} {i : Int} (v : Int)
    (h1 : lo ≤ i) (h2 : i ≤ hi) : setiR lo hi a i v = seti a i v := by
  unfold setiR
  rw [if_neg (by omega)]

/-- Forward scan instrumented with the range check. -/
def scanLtChk (lo hi : Int) (a : List Int) (pivot i : Int) : Option Int :=
  match h : getiR lo hi a i with
  | none => none
  | some v => if v < pivot then scanLtChk lo hi a pivot (i + 1) else some i
termination_by a.length - i.toNat
decreasing_by
  have hb := geti_some_bounds (getiR_some h).2.2
  omega

/-- Backward scan instrumented with the range check. -/
def scanGtChk (lo hi : Int) (a : List Int) (pivot j : Int) : Option Int :=
  match h : getiR lo hi a j with
  | none => none
  | some v => if pivot < v then scanGtChk lo hi a pivot (j - 1) else some j
termination_by (j + 1).toNat
decreasing_by
  have hb := geti_some_bounds (getiR_some h).2.2
  omega

theorem scanLtChk_eq_step {lo hi : Int} {a : List Int} {pivot i v : Int}
    (hg : getiR lo hi a i = some v) (hv : v < pivot) :
    scanLtChk lo hi a pivot i = scanLtChk lo hi a pivot (i + 1) := by
  rw [scanLtChk.eq_def, hg]
  dsimp only
  rw [if_pos hv]

theorem scanLtChk_eq_stop {lo hi : Int} {a : List Int} {pivot i v : Int}
    (hg : getiR lo hi a i = some v) (hv : ¬ v < pivot) :
    scanLtChk lo hi a pivot i = some i := by
  rw [scanLtChk.eq_def, hg]
  dsimp only
  rw [if_neg hv]

theorem scanGtChk_eq_step {lo hi : Int} {a : List Int} {pivot j v : Int}
    (hg : getiR lo hi a j = some v) (hv : pivot < v) :
    scanGtChk lo hi a pivot j = scanGtChk lo hi a pivot (j - 1) := by
  rw [scanGtChk.eq_def, hg]
  dsimp only
  rw [if_pos hv]

theorem scanGtChk_eq_stop {lo hi : Int} {a : List Int} {pivot j v : Int}
    (hg : getiR lo hi a j = some v) (hv : ¬ pivot < v) :
    scanGtChk lo hi a pivot j = some j := by
  rw [scanGtChk.eq_def, hg]
  dsimp only
  rw [if_neg hv]

/-- A successful range-checked forward scan agrees with the unchecked scan
and ends with an in-window stop access. -/
theorem scanLtChk_imp {lo hi : Int} {a : List Int} {pivot i i1 : Int}
    (h : scanLtChk lo hi a pivot i = some i1) :
    scanLt a pivot i = some i1 ∧
      ∃ v, getiR lo hi a i1 = some v ∧ ¬ v < pivot := by
  induction i using scanLtChk.induct lo hi a pivot with
  | case1 x hg =>
    rw [scanLtChk.eq_def, hg] at h
    exact absurd h (by simp)
  | case2 x v hg hv ih =>
    rw [scanLtChk_eq_step hg hv] at h
    obtain ⟨ih1, ih2⟩ := ih h
    obtain ⟨hr1, hr2, hr3⟩ := getiR_some hg
    exact ⟨by rw [scanLt_eq_step hr3 hv]; exact ih1, ih2⟩
  | case3 x v hg hv =>
    rw [scanLtChk_eq_stop hg hv] at h
    obtain ⟨hr1, hr2, hr3⟩ := getiR_some hg
    have h2 := Option.some.inj h
    subst h2
    exact ⟨scanLt_eq_stop hr3 hv, v, hg, hv⟩

/-- A successful range-checked backward scan agrees with the unchecked scan
and ends with an in-window stop access. -/
theorem scanGtChk_imp {lo hi : Int} {a : List Int} {pivot j j1 : Int}
    (h : scanGtChk lo hi a pivot j = some j1) :
    scanGt a pivot j = some j1 ∧
      ∃ v, getiR lo hi a j1 = some v ∧ ¬ pivot < v := by
  induction j using scanGtChk.induct lo hi a pivot with
  | case1 x hg =>
    rw [scanGtChk.eq_def, hg] at h
    exact absurd h (by simp)
  | case2 x v hg hv ih =>
    rw [scanGtChk_eq_step hg hv] at h
    obtain ⟨ih1, ih2⟩ := ih h
    obtain ⟨hr1, hr2, hr3⟩ := getiR_some hg
    exact ⟨by rw [scanGt_eq_step hr3 hv]; exact ih1, ih2⟩
  | case3 x v hg hv =>
    rw [scanGtChk_eq_stop hg hv] at h
    obtain ⟨hr1, hr2, hr3⟩ := getiR_some hg
    have h2 := Option.some.inj h
    subst h2
    exact ⟨scanGt_eq_stop hr3 hv, v, hg, hv⟩

/-- A range-checked forward scan that starts inside the window and the array
and has an in-window stopper succeeds, stopping at or before the stopper. -/
theorem scanLtChk_le_stopper {lo hi : Int} {a : List Int} {pivot i m v : Int}
    (hm : getiR lo hi a m = some v) (hv : ¬ v < pivot)
    (hlo : lo ≤ i) (hi0 : 0 ≤ i) (him : i ≤ m) :
    ∃ i1, scanLtChk lo hi a pivot i = some i1 ∧ i1 ≤ m := by
  obtain ⟨hm1, hm2, hm3⟩ := getiR_some hm
  induction i using scanLtChk.induct lo hi a pivot with
  | case1 x hg =>
    have hb := geti_some_bounds hm3
    have hs : getiR lo hi a x = getiR lo hi a x := rfl
    have hgx : getiR lo hi a x = geti a x := getiR_eq_of_bounds hlo (by omega)
    have hsome : (geti a x).isSome := geti_isSome_of_bounds (by omega) (by omega)
    rw [hg] at hgx
    rw [hgx.symm] at hsome
    exact absurd hsome (by simp)
  | case2 x v2 hg hv2 ih =>
    by_cases hxeq : x = m
    · subst hxeq
      rw [hg] at hm
      have := Option.some.inj hm
      exact absurd hv2 (by omega)
    · obtain ⟨i1, hi1, hi1m⟩ := ih (by omega) (by omega) (by omega)
      exact ⟨i1, by rw [scanLtChk_eq_step hg hv2]; exact hi1, hi1m⟩
  | case3 x v2 hg hv2 =>
    exact ⟨x, scanLtChk_eq_stop hg hv2, him⟩

/-- A range-checked backward scan that starts inside the window and the
array and has an in-window stopper succeeds, stopping at or after it. -/
theorem scanGtChk_ge_stopper {lo hi : Int} {a : List Int} {pivot j m v : Int}
    (hm : getiR lo hi a m = some v) (hv : ¬ pivot < v)
    (hhi : j ≤ hi) (hj0 : j < (a.length : Int)) (hmj : m ≤ j) :
    ∃ j1, scanGtChk lo hi a pivot j = some j1 ∧ m ≤ j1 := by
  obtain ⟨hm1, hm2, hm3⟩ := getiR_some hm
  induction j using scanGtChk.induct lo hi a pivot with
  | case1 x hg =>
    have hb := geti_some_bounds hm3
    have hgx : getiR lo hi a x = geti a x := getiR_eq_of_bounds (by omega) hhi
    have hsome : (geti a x).isSome := geti_isSome_of_bounds (by omega) (by omega)
    rw [hg] at hgx
    rw [hgx.symm] at hsome
    exact absurd hsome (by simp)
  | case2 x v2 hg hv2 ih =>
    by_cases hxeq : x = m
    · subst hxeq
      rw [hg] at hm
      have := Option.some.inj hm
      exact absurd hv2 (by omega)
    · obtain ⟨j1, hj1, hmj1⟩ := ih (by omega) (by omega) (by omega)
      exact ⟨j1, by rw [scanGtChk_eq_step hg hv2]; exact hj1, hmj1⟩
  | case3 x v2 hg hv2 =>
    exact ⟨x, scanGtChk_eq_stop hg hv2, hmj⟩

/-- The partition loop instrumented with the range check `[lo, hi]` on every
array access. Apart from routing accesses through `getiR`/`setiR`, the code
is the same as `hoareLoop`. -/
def hoareLoopChk (lo hi : Int) (a : List Int) (pivot i j : Int) :
    Option (List Int × Int × Int) :=
  if h0 : i ≤ j then
    match h1 : scanLtChk lo hi a pivot i, h2 : scanGtChk lo hi a pivot j with
    | some i1, some j1 =>
      if i1 ≤ j1 then
        match getiR lo hi a i1, getiR lo hi a j1 with
        | some vi, some vj =>
          match setiR lo hi a i1 vj with
          | some a1 =>
            match setiR lo hi a1 j1 vi with
            | some a2 => hoareLoopChk lo hi a2 pivot (i1 + 1) (j1 - 1)
            | none => none
          | none => none
        | _, _ => none
      else some (a, i1, j1)
    | _, _ => none
  else some (a, i, j)
termination_by (j - i + 1).toNat
decreasing_by
  have hi := scanLt_mono (scanLtChk_imp h1).1
  have hj := (scanGt_mono (scanGtChk_imp h2).1).1
  omega

theorem hoareLoopChk_eq_exit {lo hi : Int} {a : List Int} {pivot i j : Int}
    (h0 : ¬ i ≤ j) : hoareLoopChk lo hi a pivot i j = some (a, i, j) := by
  rw [hoareLoopChk.eq_def, dif_neg h0]

theorem hoareLoopChk_eq_stop {lo hi : Int} {a : List Int}
    {pivot i j i1 j1 : Int}
    (h0 : i ≤ j) (h1 : scanLtChk lo hi a pivot i = some i1)
    (h2 : scanGtChk lo hi a pivot j = some j1) (h3 : ¬ i1 ≤ j1) :
    hoareLoopChk lo hi a pivot i j = some (a, i1, j1) := by
  rw [hoareLoopChk.eq_def, dif_pos h0, h1, h2]
  dsimp only
  rw [if_neg h3]

theorem hoareLoopChk_eq_swap {lo hi : Int} {a : List Int}
    {pivot i j i1 j1 vi vj : Int} {a1 a2 : List Int}
    (h0 : i ≤ j) (h1 : scanLtChk lo hi a pivot i = some i1)
    (h2 : scanGtChk lo hi a pivot j = some j1) (h3 : i1 ≤ j1)
    (h4 : getiR lo hi a i1 = some vi) (h5 : getiR lo hi a j1 = some vj)
    (h6 : setiR lo hi a i1 vj = some a1) (h7 : setiR lo hi a1 j1 vi = some a2) :
    hoareLoopChk lo hi a pivot i j = hoareLoopChk lo hi a2 pivot (i1 + 1) (j1 - 1) := by
  rw [hoareLoopChk.eq_def, dif_pos h0, h1, h2]
  dsimp only
  rw [if_pos h3, h4, h5]
  dsimp only
  rw [h6]
  dsimp only
  rw [h7]

/-- A successful range-checked partition loop computes exactly what the
unchecked loop computes. -/
theorem hoareLoopChk_imp {lo hi : Int} {a : List Int} {pivot i j : Int}
    {t : List Int × Int × Int}
    (h : hoareLoopChk lo hi a pivot i j = some t) :
    hoareLoop a pivot i j = some t := by
  induction a, pivot, i, j using hoareLoopChk.induct lo hi with
  | case1 a pivot i j h0 i1 j1 h1 h2 h3 vi vj h5 h4 a1' h6 a2' h7 ih =>
    rw [hoareLoopChk_eq_swap h0 h1 h2 h3 h4 h5 h6 h7] at h
    have hu := ih h
    rw [hoareLoop_eq_swap h0 (scanLtChk_imp h1).1 (scanGtChk_imp h2).1 h3
      (getiR_some h4).2.2 (getiR_some h5).2.2 (setiR_some h6).2.2
      (setiR_some h7).2.2]
    exact hu
  | case2 a pivot i j h0 i1 j1 h1 h2 h3 vi vj h5 h4 a1' h6 h7 =>
    rw [hoareLoopChk.eq_def, dif_pos h0, h1, h2] at h
    dsimp only at h
    rw [if_pos h3, h4, h5] at h
    dsimp only at h
    rw [h6] at h
    dsimp only at h
    rw [h7] at h
    exact absurd h (by simp)
  | case3 a pivot i j h0 i1 j1 h1 h2 h3 vi vj h5 h4 h6 =>
    rw [hoareLoopChk.eq_def, dif_pos h0, h1, h2] at h
    dsimp only at h
    rw [if_pos h3, h4, h5] at h
    dsimp only at h
    rw [h6] at h
    exact absurd h (by simp)
  | case4 a pivot i j h0 i1 j1 h1 h2 h3 h4 =>
    rw [hoareLoopChk.eq_def, dif_pos h0, h1, h2] at h
    dsimp only at h
    rw [if_pos h3] at h
    rcases hg1 : getiR lo hi a i1 with _ | vi
    · rw [hg1] at h
      dsimp only at h
      exact absurd h (by simp)
    · rcases hg2 : getiR lo hi a j1 with _ | vj
      · rw [hg1, hg2] at h
        dsimp only at h
        exact absurd h (by simp)
      · exact absurd (h4 vi vj hg1 hg2) (by simp)
  | case5 a pivot i j h0 i1 j1 h1 h2 h3 =>
    rw [hoareLoopChk_eq_stop h0 h1 h2 h3] at h
    rw [hoareLoop_eq_stop h0 (scanLtChk_imp h1).1 (scanGtChk_imp h2).1 h3]
    exact h
  | case6 a pivot i j h0 hfail =>
    rw [hoareLoopChk.eq_def, dif_pos h0] at h
    rcases hs1 : scanLtChk lo hi a pivot i with _ | i1
    · rw [hs1] at h
      dsimp only at h
      exact absurd h (by simp)
    · rcases hs2 : scanGtChk lo hi a pivot j with _ | j1
      · rw [hs1, hs2] at h
        dsimp only at h
        exact absurd h (by simp)
      · exact absurd (hfail i1 j1 hs1 hs2) (by simp)
  | case7 a pivot i j h0 =>
    rw [hoareLoopChk_eq_exit h0] at h
    rw [hoareLoop_eq_exit h0]
    exact h

/-- Under the loop invariant of the Hoare partition (whenever the loop is
entered, the forward scan has an in-window stopper ahead and the backward
scan has one behind), the range-checked partition loop succeeds, and its
final indices land in `[lo, hi + 1]` and `[lo - 1, hi]` respectively. -/
theorem hoareLoopChk_success {lo hi : Int} {a : List Int} {pivot i j : Int}
    (hii1 : lo ≤ i) (hii2 : i ≤ hi + 1) (hjj1 : lo - 1 ≤ j) (hjj2 : j ≤ hi)
    (hlen : hi < (a.length : Int)) (hlo : 0 ≤ lo)
    (hst : i ≤ j →
      (∃ mi v, i ≤ mi ∧ getiR lo hi a mi = some v ∧ ¬ v < pivot) ∧
      (∃ mj w, mj ≤ j ∧ getiR lo hi a mj = some w ∧ ¬ pivot < w)) :
    ∃ a1 i2 j2, hoareLoopChk lo hi a pivot i j = some (a1, i2, j2) ∧
      lo ≤ i2 ∧ i2 ≤ hi + 1 ∧ lo - 1 ≤ j2 ∧ j2 ≤ hi := by
  induction a, pivot, i, j using hoareLoopChk.induct lo hi with
  | case1 a pivot i j h0 i1 j1 h1 h2 h3 vi vj h5 h4 a1' h6 a2' h7 ih =>
    obtain ⟨hstop1v, hstop1r, hstop1p⟩ :
        ∃ v, getiR lo hi a i1 = some v ∧ ¬ v < pivot := (scanLtChk_imp h1).2
    obtain ⟨hstop2v, hstop2r, hstop2p⟩ :
        ∃ v, getiR lo hi a j1 = some v ∧ ¬ pivot < v := (scanGtChk_imp h2).2
    rw [h4] at hstop1r
    have hviv : vi = hstop1v := Option.some.inj hstop1r
    subst hviv
    rw [h5] at hstop2r
    have hvjv : vj = hstop2v := Option.some.inj hstop2r
    subst hvjv
    obtain ⟨hbi1, hbi2, h4'⟩ := getiR_some h4
    obtain ⟨hbj1, hbj2, h5'⟩ := getiR_some h5
    obtain ⟨hsi1, hsi2, h6'⟩ := setiR_some h6
    obtain ⟨hsj1, hsj2, h7'⟩ := setiR_some h7
    obtain ⟨hb1a, hb1b, ha1'⟩ := seti_some_iff h6'
    obtain ⟨hb2a, hb2b, ha2'⟩ := seti_some_iff h7'
    subst ha1'
    subst ha2'
    have hb2b' : j1.toNat < a.length := by
      rw [List.length_set] at hb2b
      exact hb2b
    have hg_j1 : geti ((a.set i1.toNat vj).set j1.toNat vi) j1 = some vi :=
      geti_set_self hb2a hb2b
    have hg_i1 : geti ((a.set i1.toNat vj).set j1.toNat vi) i1 = some vj := by
      by_cases hij : i1 = j1
      · subst hij
        have hvv : vi = vj := by
          rw [h4'] at h5'
          exact Option.some.inj h5'
        rw [List.set_set, hvv]
        exact geti_set_self hb1a hb1b
      · rw [geti_set_ne vi hb2a hij, geti_set_self hb1a hb1b]
    have hlen2 : hi < (((a.set i1.toNat vj).set j1.toNat vi).length : Int) := by
      rw [List.length_set, List.length_set]
      exact hlen
    have hstNew : i1 + 1 ≤ j1 - 1 →
        (∃ mi v, i1 + 1 ≤ mi ∧
          getiR lo hi ((a.set i1.toNat vj).set j1.toNat vi) mi = some v ∧
            ¬ v < pivot) ∧
        (∃ mj w, mj ≤ j1 - 1 ∧
          getiR lo hi ((a.set i1.toNat vj).set j1.toNat vi) mj = some w ∧
            ¬ pivot < w) := by
      intro hnext
      constructor
      · refine ⟨j1, vi, by omega, ?_, hstop1p⟩
        rw [getiR_eq_of_bounds hbj1 hbj2]
        exact hg_j1
      · refine ⟨i1, vj, by omega, ?_, hstop2p⟩
        rw [getiR_eq_of_bounds hbi1 hbi2]
        exact hg_i1
    obtain ⟨a3, i2, j2, hrec, hr1, hr2, hr3, hr4⟩ :=
      ih (by omega) (by omega) (by omega) (by omega) hlen2 hstNew
    refine ⟨a3, i2, j2, ?_, hr1, hr2, hr3, hr4⟩
    rw [hoareLoopChk_eq_swap h0 h1 h2 h3 h4 h5 h6 h7]
    exact hrec
  | case2 a pivot i j h0 i1 j1 h1 h2 h3 vi vj h5 h4 a1' h6 h7 =>
    obtain ⟨hbj1, hbj2, h5'⟩ := getiR_some h5
    obtain ⟨hsi1, hsi2, h6'⟩ := setiR_some h6
    obtain ⟨hb1a, hb1b, ha1'⟩ := seti_some_iff h6'
    obtain ⟨hj0, hjl⟩ := geti_some_bounds h5'
    have hset : seti a1' j1 vi = some (a1'.set j1.toNat vi) := by
      refine seti_some_of_bounds vi hj0 ?_
      rw [ha1', List.length_set]
      exact hjl
    have : setiR lo hi a1' j1 vi = some (a1'.set j1.toNat vi) := by
      rw [setiR_eq_of_bounds vi hbj1 hbj2]
      exact hset
    rw [h7] at this
    exact absurd this (by simp)
  | case3 a pivot i j h0 i1 j1 h1 h2 h3 vi vj h5 h4 h6 =>
    obtain ⟨hbi1, hbi2, h4'⟩ := getiR_some h4
    obtain ⟨hi0, hil⟩ := geti_some_bounds h4'
    have : setiR lo hi a i1 vj = some (a.set i1.toNat vj) := by
      rw [setiR_eq_of_bounds vj hbi1 hbi2]
      exact seti_some_of_bounds vj hi0 hil
    rw [h6] at this
    exact absurd this (by simp)
  | case4 a pivot i j h0 i1 j1 h1 h2 h3 h4 =>
    obtain ⟨v1, hv1, hp1⟩ := (scanLtChk_imp h1).2
    obtain ⟨v2, hv2, hp2⟩ := (scanGtChk_imp h2).2
    exact absurd (h4 v1 v2 hv1 hv2) (by simp)
  | case5 a pivot i j h0 i1 j1 h1 h2 h3 =>
    obtain ⟨v1, hv1, hp1⟩ := (scanLtChk_imp h1).2
    obtain ⟨v2, hv2, hp2⟩ := (scanGtChk_imp h2).2
    obtain ⟨hbi1, hbi2, hgv1⟩ := getiR_some hv1
    obtain ⟨hbj1, hbj2, hgv2⟩ := getiR_some hv2
    exact ⟨a, i1, j1, hoareLoopChk_eq_stop h0 h1 h2 h3, hbi1, by omega,
      by omega, hbj2⟩
  | case6 a pivot i j h0 hfail =>
    obtain ⟨⟨mi, v, hmi, hgmi, hpv⟩, ⟨mj, w, hmj, hgmj, hpw⟩⟩ := hst h0
    obtain ⟨i1, hscan1, hle1⟩ :=
      scanLtChk_le_stopper hgmi hpv hii1 (by omega) hmi
    obtain ⟨j1, hscan2, hle2⟩ :=
      scanGtChk_ge_stopper hgmj hpw hjj2 (by omega) hmj
    exact absurd (hfail i1 j1 hscan1 hscan2) (by simp)
  | case7 a pivot i j h0 =>
    exact ⟨a, i, j, hoareLoopChk_eq_exit h0, hii1, hii2, hjj1, hjj2⟩

theorem cdiv2_nonneg_eq (n : Int) (h : 0 ≤ n) : cdiv2 n = n / 2 := by
  unfold cdiv2
  obtain ⟨m, rfl⟩ := Int.eq_ofNat_of_zero_le h
  rfl

theorem cdiv2_bounds {l r : Int} (h1 : 0 ≤ l) (h2 : l ≤ r) :
    l ≤ cdiv2 (l + r) ∧ cdiv2 (l + r) ≤ r := by
  rw [cdiv2_nonneg_eq (l + r) (by omega)]
  omega

theorem scanLt_first_some {a : List Int} {pivot i i1 : Int}
    (h : scanLt a pivot i = some i1) : (geti a i).isSome := by
  obtain ⟨h1, ⟨v, hv, _⟩, h3⟩ := scanLt_spec h
  by_cases he : i = i1
  · subst he
    rw [hv]
    rfl
  · obtain ⟨w, hw, _⟩ := h3 i (le_refl i) (by omega)
    rw [hw]
    rfl

theorem scanGt_first_some {a : List Int} {pivot j j1 : Int}
    (h : scanGt a pivot j = some j1) : (geti a j).isSome := by
  obtain ⟨h1, ⟨v, hv, _⟩, h3⟩ := scanGt_spec h
  by_cases he : j = j1
  · subst he
    rw [hv]
    rfl
  · obtain ⟨w, hw, _⟩ := h3 j (by omega) (le_refl j)
    rw [hw]
    rfl

/-- A partition loop that is entered (`l ≤ r`) and succeeds pins its window
inside the array: the first access of each scan is `arr[l]` and `arr[r]`. -/
theorem hoareLoop_entry_bounds {a : List Int} {pivot l r : Int}
    {t : List Int × Int × Int} (hlr : l ≤ r)
    (h : hoareLoop a pivot l r = some t) :
    0 ≤ l ∧ r < (a.length : Int) := by
  rw [hoareLoop.eq_def, dif_pos hlr] at h
  rcases hs1 : scanLt a pivot l with _ | i1
  · rw [hs1] at h
    dsimp only at h
    exact absurd h (by simp)
  · rcases hs2 : scanGt a pivot r with _ | j1
    · rw [hs1, hs2] at h
      dsimp only at h
      exact absurd h (by simp)
    · have ha1 := scanLt_first_some hs1
      have ha2 := scanGt_first_some hs2
      rw [Option.isSome_iff_exists] at ha1 ha2
      obtain ⟨v1, hv1⟩ := ha1
      obtain ⟨v2, hv2⟩ := ha2
      have hb1 := geti_some_bounds hv1
      have hb2 := geti_some_bounds hv2
      omega

/-- Entering the partition loop on a window `[l, r]` that holds the pivot
value at some index `m` (the C code reads it from the middle element)
always succeeds — with every access inside `[l, r]`, as witnessed by the
range-checked run — and the final indices make strict progress into the
window: `l < i2` and `j2 < r`, which is what keeps the recursion of
`QuickSort` well founded. -/
theorem hoare_pivot {a : List Int} {pivot l r m : Int}
    (h0 : 0 ≤ l) (hlr : l ≤ r) (hr : r < (a.length : Int))
    (hm1 : l ≤ m) (hm2 : m ≤ r) (hp : geti a m = some pivot) :
    ∃ a1 i2 j2,
      hoareLoopChk l r a pivot l r = some (a1, i2, j2) ∧
      hoareLoop a pivot l r = some (a1, i2, j2) ∧
      l < i2 ∧ i2 ≤ r + 1 ∧ l - 1 ≤ j2 ∧ j2 < r := by
  have hnp1 : ¬ pivot < pivot := lt_irrefl pivot
  have hgR : getiR l r a m = some pivot := by
    rw [getiR_eq_of_bounds hm1 hm2]
    exact hp
  obtain ⟨a1, i2, j2, hchk, hb1, hb2, hb3, hb4⟩ :=
    hoareLoopChk_success (le_refl l) (by omega) (by omega) (le_refl r) hr h0
      (fun _ => ⟨⟨m, pivot, hm1, hgR, hnp1⟩, ⟨m, pivot, hm2, hgR, hnp1⟩⟩)
  have hun : hoareLoop a pivot l r = some (a1, i2, j2) := hoareLoopChk_imp hchk
  obtain ⟨i1, hscan1, hi1m⟩ := scanLt_le_stopper hp hnp1 h0 hm1
  obtain ⟨j1, hscan2, hmj1⟩ := scanGt_ge_stopper hp hnp1 hr hm2
  obtain ⟨hsc1a, ⟨vi, hvi, hvip⟩, hscl⟩ := scanLt_spec hscan1
  obtain ⟨hsc2a, ⟨vj, hvj, hvjp⟩, hscg⟩ := scanGt_spec hscan2
  obtain ⟨hbi0, hbil⟩ := geti_some_bounds hvi
  obtain ⟨hbj0, hbjl⟩ := geti_some_bounds hvj
  have hswap1 : seti a i1 vj = some (a.set i1.toNat vj) :=
    seti_some_of_bounds vj hbi0 hbil
  have hswap2 : seti (a.set i1.toNat vj) j1 vi =
      some ((a.set i1.toNat vj).set j1.toNat vi) := by
    refine seti_some_of_bounds vi hbj0 ?_
    rw [List.length_set]
    exact hbjl
  have hstep :=
    hoareLoop_eq_swap hlr hscan1 hscan2 (by omega) hvi hvj hswap1 hswap2
  have hun2 := hun
  rw [hstep] at hun2
  obtain ⟨_, _, hm1', hm2', _, _, _, _⟩ := hoareLoop_main hun2
  exact ⟨a1, i2, j2, hchk, hun, by omega, by omega, by omega, by omega⟩

/-- Progress of the partition step of `QuickSort`, stated for exactly the
pivot the C code uses: the middle element of the window. -/
theorem hoare_progress {a : List Int} {pivot l r : Int} {a1 : List Int}
    {i2 j2 : Int}
    (hp : geti a (cdiv2 (l + r)) = some pivot)
    (h : hoareLoop a pivot l r = some (a1, i2, j2)) (hlr : l ≤ r) :
    l < i2 ∧ j2 < r := by
  obtain ⟨h0, hr⟩ := hoareLoop_entry_bounds hlr h
  obtain ⟨hm1, hm2⟩ := cdiv2_bounds h0 hlr
  obtain ⟨a1', i2', j2', hchk', hun', hp1, hp2, hp3, hp4⟩ :=
    hoare_pivot h0 hlr hr hm1 hm2 hp
  rw [h] at hun'
  have h' := Option.some.inj hun'
  rw [Prod.mk.injEq, Prod.mk.injEq] at h'
  obtain ⟨rfl, rfl, rfl⟩ := h'
  exact ⟨hp1, hp4⟩

/-- The `Cut_Off` constant of main.c line 19: below this range size the
parallel sorter stops spawning tasks and recurses inline. -/
def Cut_Off : Int := 10000

/-- The `Num_To_Sort` constant of main.c line 15. -/
def Num_To_Sort : Int := 1000000

/-- The sequential `QuickSort` of main.c lines 22-62: read the pivot from
the middle element `arr[(left + right) / 2]`, run the partition loop, then
recurse into `[left, j]` only when `left < j` and into `[i, right]` only
when `i < right`. `none` models an out-of-bounds access (undefined
behaviour in the C program). -/
def QuickSort (arr : List Int) (left right : Int) : Option (List Int) :=
  match hp : geti arr (cdiv2 (left + right)) with
  | none => none
  | some pivot =>
    match hl : hoareLoop arr pivot left right with
    | none => none
    | some (a1, i, j) =>
      if hj : left < j then
        match QuickSort a1 left j with
        | none => none
        | some a2 => if hi : i < right then QuickSort a2 i right else some a2
      else
        if hi : i < right then QuickSort a1 i right else some a1
termination_by (right - left).toNat
decreasing_by
  · by_cases hlr : left ≤ right
    · have := hoare_progress hp hl hlr
      omega
    · rw [hoareLoop_eq_exit (by omega)] at hl
      have h' := Option.some.inj hl
      rw [Prod.mk.injEq, Prod.mk.injEq] at h'
      obtain ⟨he1, he2, he3⟩ := h'
      omega
  · by_cases hlr : left ≤ right
    · have := hoare_progress hp hl hlr
      omega
    · rw [hoareLoop_eq_exit (by omega)] at hl
      have h' := Option.some.inj hl
      rw [Prod.mk.injEq, Prod.mk.injEq] at h'
      obtain ⟨he1, he2, he3⟩ := h'
      omega
  · by_cases hlr : left ≤ right
    · have := hoare_progress hp hl hlr
      omega
    · rw [hoareLoop_eq_exit (by omega)] at hl
      have h' := Option.some.inj hl
      rw [Prod.mk.injEq, Prod.mk.injEq] at h'
      obtain ⟨he1, he2, he3⟩ := h'
      omega

/-- `QuickSort_Parallel` of main.c lines 80-139. The partition step is
character for character the one of `QuickSort`. Below `Cut_Off` the
recursion is inline and guarded exactly as in `QuickSort`; at or above
`Cut_Off` the two recursive calls are spawned as OpenMP tasks, *without*
the `left < j` / `i < right` guards. The two tasks operate on the disjoint
windows `[left, j]` and `[i, right]`, so running them one after the other
is a faithful model of every interleaving. -/
def QuickSort_Parallel (arr : List Int) (left right : Int) :
    Option (List Int) :=
  match hp : geti arr (cdiv2 (left + right)) with
  | none => none
  | some pivot =>
    match hl : hoareLoop arr pivot left right with
    | none => none
    | some (a1, i, j) =>
      if right - left < Cut_Off then
        if hj : left < j then
          match QuickSort_Parallel a1 left j with
          | none => none
          | some a2 =>
            if hi : i < right then QuickSort_Parallel a2 i right else some a2
        else
          if hi : i < right then QuickSort_Parallel a1 i right else some a1
      else
        match QuickSort_Parallel a1 left j with
        | none => none
        | some a2 => QuickSort_Parallel a2 i right
termination_by (right - left + 1).toNat
decreasing_by
  · by_cases hlr : left ≤ right
    · have := hoare_progress hp hl hlr
      omega
    · rw [hoareLoop_eq_exit (by omega)] at hl
      have h' := Option.some.inj hl
      rw [Prod.mk.injEq, Prod.mk.injEq] at h'
      obtain ⟨he1, he2, he3⟩ := h'
      omega
  · by_cases hlr : left ≤ right
    · have := hoare_progress hp hl hlr
      omega
    · rw [hoareLoop_eq_exit (by omega)] at hl
      have h' := Option.some.inj hl
      rw [Prod.mk.injEq, Prod.mk.injEq] at h'
      obtain ⟨he1, he2, he3⟩ := h'
      omega
  · by_cases hlr : left ≤ right
    · have := hoare_progress hp hl hlr
      omega
    · rw [hoareLoop_eq_exit (by omega)] at hl
      have h' := Option.some.inj hl
      rw [Prod.mk.injEq, Prod.mk.injEq] at h'
      obtain ⟨he1, he2, he3⟩ := h'
      omega
  · have hlr : left ≤ right := by
      unfold Cut_Off at *
      omega
    have := hoare_progress hp hl hlr
    omega
  · have hlr : left ≤ right := by
      unfold Cut_Off at *
      omega
    have := hoare_progress hp hl hlr
    omega

/-- `sort_s` of main.c lines 65-71: calls `QuickSort` on the hard-coded
range `[0, Num_To_Sort - 1]`. -/
def sort_s (arr : List Int) : Option (List Int) :=
  QuickSort arr 0 (Num_To_Sort - 1)

/-- `sort_p` of main.c lines 143-161: wraps `QuickSort_Parallel` on the
hard-coded range in an OpenMP parallel region; the region's task scheduling
is not representable in this embedding, so the model is the completed task
tree, `QuickSort_Parallel` itself. -/
def sort_p (arr : List Int) : Option (List Int) :=
  QuickSort_Parallel arr 0 (Num_To_Sort - 1)

/-- The spec's entry point `sort_sequential(array, length)`: the pattern of
`sort_s` with the benchmark constant generalised to the length of the given
array, i.e. `QuickSort` on the full range `[0, length - 1]`. -/
def sortSeq (arr : List Int) : Option (List Int) :=
  QuickSort arr 0 ((arr.length : Int) - 1)

/-- The spec's entry point `sort_parallel(array, length)`: the pattern of
`sort_p` generalised to the length of the given array. -/
def sortPar (arr : List Int) : Option (List Int) :=
  QuickSort_Parallel arr 0 ((arr.length : Int) - 1)

theorem QuickSort_eq_pivotNone {arr : List Int} {l r : Int}
    (hp : geti arr (cdiv2 (l + r)) = none) : QuickSort arr l r = none := by
  rw [QuickSort.eq_def, hp]

theorem QuickSort_eq_loopNone {arr : List Int} {l r pivot : Int}
    (hp : geti arr (cdiv2 (l + r)) = some pivot)
    (hl : hoareLoop arr pivot l r = none) : QuickSort arr l r = none := by
  rw [QuickSort.eq_def, hp]
  dsimp only
  rw [hl]

theorem QuickSort_eq_left {arr : List Int} {l r pivot : Int} {a1 : List Int}
    {i j : Int}
    (hp : geti arr (cdiv2 (l + r)) = some pivot)
    (hl : hoareLoop arr pivot l r = some (a1, i, j)) (hj : l < j) :
    QuickSort arr l r =
      match QuickSort a1 l j with
      | none => none
      | some a2 => if _h : i < r then QuickSort a2 i r else some a2 := by
  rw [QuickSort.eq_def, hp]
  dsimp only
  rw [hl]
  dsimp only
  rw [dif_pos hj]

theorem QuickSort_eq_right {arr : List Int} {l r pivot : Int} {a1 : List Int}
    {i j : Int}
    (hp : geti arr (cdiv2 (l + r)) = some pivot)
    (hl : hoareLoop arr pivot l r = some (a1, i, j)) (hj : ¬ l < j) :
    QuickSort arr l r = if _h : i < r then QuickSort a1 i r else some a1 := by
  rw [QuickSort.eq_def, hp]
  dsimp only
  rw [hl]
  dsimp only
  rw [dif_neg hj]

theorem QuickSort_Parallel_eq_pivotNone {arr : List Int} {l r : Int}
    (hp : geti arr (cdiv2 (l + r)) = none) :
    QuickSort_Parallel arr l r = none := by
  rw [QuickSort_Parallel.eq_def, hp]

theorem QuickSort_Parallel_eq_loopNone {arr : List Int} {l r pivot : Int}
    (hp : geti arr (cdiv2 (l + r)) = some pivot)
    (hl : hoareLoop arr pivot l r = none) :
    QuickSort_Parallel arr l r = none := by
  rw [QuickSort_Parallel.eq_def, hp]
  dsimp only
  rw [hl]

theorem QuickSort_Parallel_eq_inline_left {arr : List Int} {l r pivot : Int}
    {a1 : List Int} {i j : Int}
    (hp : geti arr (cdiv2 (l + r)) = some pivot)
    (hl : hoareLoop arr pivot l r = some (a1, i, j))
    (hcut : r - l < Cut_Off) (hj : l < j) :
    QuickSort_Parallel arr l r =
      match QuickSort_Parallel a1 l j with
      | none => none
      | some a2 =>
        if _h : i < r then QuickSort_Parallel a2 i r else some a2 := by
  rw [QuickSort_Parallel.eq_def, hp]
  dsimp only
  rw [hl]
  dsimp only
  rw [if_pos hcut, dif_pos hj]

theorem QuickSort_Parallel_eq_inline_right {arr : List Int} {l r pivot : Int}
    {a1 : List Int} {i j : Int}
    (hp : geti arr (cdiv2 (l + r)) = some pivot)
    (hl : hoareLoop arr pivot l r = some (a1, i, j))
    (hcut : r - l < Cut_Off) (hj : ¬ l < j) :
    QuickSort_Parallel arr l r =
      if _h : i < r then QuickSort_Parallel a1 i r else some a1 := by
  rw [QuickSort_Parallel.eq_def, hp]
  dsimp only
  rw [hl]
  dsimp only
  rw [if_pos hcut, dif_neg hj]

theorem QuickSort_Parallel_eq_task {arr : List Int} {l r pivot : Int}
    {a1 : List Int} {i j : Int}
    (hp : geti arr (cdiv2 (l + r)) = some pivot)
    (hl : hoareLoop arr pivot l r = some (a1, i, j))
    (hcut : ¬ r - l < Cut_Off) :
    QuickSort_Parallel arr l r =
      match QuickSort_Parallel a1 l j with
      | none => none
      | some a2 => QuickSort_Parallel a2 i r := by
  rw [QuickSort_Parallel.eq_def, hp]
  dsimp only
  rw [hl]
  dsimp only
  rw [if_neg hcut]

theorem getv_congr {a b : List Int} {k k2 : Int}
    (h : geti a k = geti b k2) : getv a k = getv b k2 := by
  unfold getv
  rw [h]

/-- Full specification of a successful `QuickSort` call on the window
`[l, r]`: the result is a permutation of the whole array, nothing outside
the window changed, every slot of the window holds a value some slot of the
window held before, and the window is sorted (adjacent-pair form). -/
theorem QuickSort_spec {arr : List Int} {l r : Int} :
    ∀ b, QuickSort arr l r = some b →
      b.Perm arr ∧
      (∀ k, k < l ∨ r < k → geti b k = geti arr k) ∧
      (∀ k, l ≤ k → k ≤ r → ∃ k2, l ≤ k2 ∧ k2 ≤ r ∧ geti b k = geti arr k2) ∧
      (∀ k, l ≤ k → k + 1 ≤ r → getv b k ≤ getv b (k + 1)) := by
  induction arr, l, r using QuickSort.induct with
  | case1 arr l r hp =>
    intro b h
    rw [QuickSort_eq_pivotNone hp] at h
    exact absurd h (by simp)
  | case2 arr l r pivot hp hl =>
    intro b h
    rw [QuickSort_eq_loopNone hp hl] at h
    exact absurd h (by simp)
  | case3 arr l r pivot hp a1 i j hl hj hrec ih =>
    intro b h
    rw [QuickSort_eq_left hp hl hj, hrec] at h
    exact absurd h (by simp)
  | case4 arr l r pivot hp a1 i j hl hj a2 hrec1 hi ih1 ih2 =>
    intro b h
    rw [QuickSort_eq_left hp hl hj, hrec1] at h
    dsimp only at h
    rw [dif_pos hi] at h
    obtain ⟨hlPerm, hlLt, hlM1, hlM2, hlFrame, hlLe, hlGe, hlRange⟩ :=
      hoareLoop_main hl
    obtain ⟨s1Perm, s1Frame, s1Range, s1Sorted⟩ := ih1 a2 hrec1
    obtain ⟨s2Perm, s2Frame, s2Range, s2Sorted⟩ := ih2 b h
    have hbLe : ∀ k, l ≤ k → k ≤ j → getv b k ≤ pivot := by
      intro k hk1 hk2
      have e1 : geti b k = geti a2 k := s2Frame k (by omega)
      obtain ⟨k2, hk2a, hk2b, e2⟩ := s1Range k hk1 hk2
      rw [getv_congr e1, getv_congr e2]
      exact hlLe k2 hk2a (by omega)
    have hbGe : ∀ k, i ≤ k → k ≤ r → pivot ≤ getv b k := by
      intro k hk1 hk2
      obtain ⟨k2, hk2a, hk2b, e1⟩ := s2Range k hk1 hk2
      have e2 : geti a2 k2 = geti a1 k2 := s1Frame k2 (by omega)
      rw [getv_congr e1, getv_congr e2]
      exact hlGe k2 (by omega) hk2b
    have hbMid : ∀ k, l ≤ k → k ≤ r → j < k → k < i → getv b k = pivot := by
      intro k hk1 hk2 hk3 hk4
      have e1 : geti b k = geti a2 k := s2Frame k (by omega)
      have e2 : geti a2 k = geti a1 k := s1Frame k (by omega)
      have hle := hlLe k hk1 hk4
      have hge := hlGe k hk3 hk2
      rw [getv_congr e1, getv_congr e2]
      omega
    refine ⟨s2Perm.trans (s1Perm.trans hlPerm), ?_, ?_, ?_⟩
    · intro k hk
      rw [s2Frame k (by omega), s1Frame k (by omega)]
      exact hlFrame k hk
    · intro k hk1 hk2
      by_cases hki : i ≤ k
      · obtain ⟨k2, hk2a, hk2b, e1⟩ := s2Range k hki hk2
        have e2 : geti a2 k2 = geti a1 k2 := s1Frame k2 (by omega)
        obtain ⟨k3, hk3a, hk3b, e3⟩ := hlRange k2 (by omega) hk2b
        exact ⟨k3, hk3a, hk3b, by rw [e1, e2, e3]⟩
      · have e1 : geti b k = geti a2 k := s2Frame k (by omega)
        by_cases hkj : k ≤ j
        · obtain ⟨k2, hk2a, hk2b, e2⟩ := s1Range k hk1 hkj
          obtain ⟨k3, hk3a, hk3b, e3⟩ := hlRange k2 hk2a (by omega)
          exact ⟨k3, hk3a, hk3b, by rw [e1, e2, e3]⟩
        · have e2 : geti a2 k = geti a1 k := s1Frame k (by omega)
          obtain ⟨k3, hk3a, hk3b, e3⟩ := hlRange k hk1 hk2
          exact ⟨k3, hk3a, hk3b, by rw [e1, e2, e3]⟩
    · intro k hk1 hk2
      by_cases hka : k + 1 ≤ j
      · have e1 : geti b k = geti a2 k := s2Frame k (by omega)
        have e2 : geti b (k + 1) = geti a2 (k + 1) := s2Frame (k + 1) (by omega)
        rw [getv_congr e1, getv_congr e2]
        exact s1Sorted k hk1 hka
      · by_cases hkb : i ≤ k
        · exact s2Sorted k hkb hk2
        · have hup : pivot ≤ getv b (k + 1) := by
            by_cases hc : i ≤ k + 1
            · exact hbGe (k + 1) hc hk2
            · have := hbMid (k + 1) (by omega) hk2 (by omega) (by omega)
              omega
          have hdown : getv b k ≤ pivot := by
            by_cases hc : k ≤ j
            · exact hbLe k hk1 hc
            · have := hbMid k hk1 (by omega) (by omega) (by omega)
              omega
          omega
  | case5 arr l r pivot hp a1 i j hl hj a2 hrec1 hi ih1 =>
    intro b h
    rw [QuickSort_eq_left hp hl hj, hrec1] at h
    dsimp only at h
    rw [dif_neg hi] at h
    have hb : a2 = b := Option.some.inj h
    subst hb
    obtain ⟨hlPerm, hlLt, hlM1, hlM2, hlFrame, hlLe, hlGe, hlRange⟩ :=
      hoareLoop_main hl
    obtain ⟨s1Perm, s1Frame, s1Range, s1Sorted⟩ := ih1 a2 hrec1
    have hbLe : ∀ k, l ≤ k → k ≤ j → getv a2 k ≤ pivot := by
      intro k hk1 hk2
      obtain ⟨k2, hk2a, hk2b, e2⟩ := s1Range k hk1 hk2
      rw [getv_congr e2]
      exact hlLe k2 hk2a (by omega)
    have hbGe : ∀ k, j < k → k ≤ r → pivot ≤ getv a2 k := by
      intro k hk1 hk2
      have e2 : geti a2 k = geti a1 k := s1Frame k (by omega)
      rw [getv_congr e2]
      exact hlGe k hk1 hk2
    refine ⟨s1Perm.trans hlPerm, ?_, ?_, ?_⟩
    · intro k hk
      rw [s1Frame k (by omega)]
      exact hlFrame k hk
    · intro k hk1 hk2
      by_cases hkj : k ≤ j
      · obtain ⟨k2, hk2a, hk2b, e2⟩ := s1Range k hk1 hkj
        obtain ⟨k3, hk3a, hk3b, e3⟩ := hlRange k2 hk2a (by omega)
        exact ⟨k3, hk3a, hk3b, by rw [e2, e3]⟩
      · have e2 : geti a2 k = geti a1 k := s1Frame k (by omega)
        obtain ⟨k3, hk3a, hk3b, e3⟩ := hlRange k hk1 hk2
        exact ⟨k3, hk3a, hk3b, by rw [e2, e3]⟩
    · intro k hk1 hk2
      by_cases hka : k + 1 ≤ j
      · exact s1Sorted k hk1 hka
      · have hup : pivot ≤ getv a2 (k + 1) := hbGe (k + 1) (by omega) hk2
        have hdown : getv a2 k ≤ pivot := by
          by_cases hc : k ≤ j
          · exact hbLe k hk1 hc
          · have h1 := hbGe k (by omega) (by omega)
            have e2 : geti a2 k = geti a1 k := s1Frame k (by omega)
            have h2 : getv a2 k ≤ pivot := by
              rw [getv_congr e2]
              exact hlLe k hk1 (by omega)
            omega
        omega
  | case6 arr l r pivot hp a1 i j hl hj hi ih =>
    intro b h
    rw [QuickSort_eq_right hp hl hj] at h
    rw [dif_pos hi] at h
    obtain ⟨hlPerm, hlLt, hlM1, hlM2, hlFrame, hlLe, hlGe, hlRange⟩ :=
      hoareLoop_main hl
    obtain ⟨s2Perm, s2Frame, s2Range, s2Sorted⟩ := ih b h
    have hbGe : ∀ k, i ≤ k → k ≤ r → pivot ≤ getv b k := by
      intro k hk1 hk2
      obtain ⟨k2, hk2a, hk2b, e1⟩ := s2Range k hk1 hk2
      rw [getv_congr e1]
      exact hlGe k2 (by omega) hk2b
    refine ⟨s2Perm.trans hlPerm, ?_, ?_, ?_⟩
    · intro k hk
      rw [s2Frame k (by omega)]
      exact hlFrame k hk
    · intro k hk1 hk2
      by_cases hki : i ≤ k
      · obtain ⟨k2, hk2a, hk2b, e1⟩ := s2Range k hki hk2
        obtain ⟨k3, hk3a, hk3b, e3⟩ := hlRange k2 (by omega) hk2b
        exact ⟨k3, hk3a, hk3b, by rw [e1, e3]⟩
      · have e1 : geti b k = geti a1 k := s2Frame k (by omega)
        obtain ⟨k3, hk3a, hk3b, e3⟩ := hlRange k hk1 hk2
        exact ⟨k3, hk3a, hk3b, by rw [e1, e3]⟩
    · intro k hk1 hk2
      by_cases hkb : i ≤ k
      · exact s2Sorted k hkb hk2
      · have hdown : getv b k ≤ pivot := by
          have e1 : geti b k = geti a1 k := s2Frame k (by omega)
          rw [getv_congr e1]
          exact hlLe k hk1 (by omega)
        have hup : pivot ≤ getv b (k + 1) := by
          by_cases hc : i ≤ k + 1
          · exact hbGe (k + 1) hc hk2
          · have e1 : geti b (k + 1) = geti a1 (k + 1) := s2Frame (k + 1) (by omega)
            rw [getv_congr e1]
            exact hlGe (k + 1) (by omega) hk2
        omega
  | case7 arr l r pivot hp a1 i j hl hj hi =>
    intro b h
    rw [QuickSort_eq_right hp hl hj] at h
    rw [dif_neg hi] at h
    have hb : a1 = b := Option.some.inj h
    subst hb
    obtain ⟨hlPerm, hlLt, hlM1, hlM2, hlFrame, hlLe, hlGe, hlRange⟩ :=
      hoareLoop_main hl
    refine ⟨hlPerm, hlFrame, hlRange, ?_⟩
    intro k hk1 hk2
    have hdown : getv a1 k ≤ pivot := hlLe k hk1 (by omega)
    have hup : pivot ≤ getv a1 (k + 1) := hlGe (k + 1) (by omega) hk2
    omega

/-- On a valid window (`0 ≤ l ≤ r < length`) `QuickSort` always returns
`some`: no access ever leaves the array and the recursion terminates with a
result. In particular this holds for an array of all-equal elements — the
partition still makes progress because the scans stop on equality and the
swap moves both indices. -/
theorem QuickSort_success {arr : List Int} {l r : Int} :
    0 ≤ l → r < (arr.length : Int) → l ≤ r →
      ∃ b, QuickSort arr l r = some b := by
  induction arr, l, r using QuickSort.induct with
  | case1 arr l r hp =>
    intro h0 hr hlr
    obtain ⟨hm1, hm2⟩ := cdiv2_bounds h0 hlr
    have hs : (geti arr (cdiv2 (l + r))).isSome :=
      geti_isSome_of_bounds (by omega) (by omega)
    rw [hp] at hs
    exact absurd hs (by simp)
  | case2 arr l r pivot hp hl =>
    intro h0 hr hlr
    obtain ⟨hm1, hm2⟩ := cdiv2_bounds h0 hlr
    obtain ⟨a1, i2, j2, hchk, hun, hp1, hp2, hp3, hp4⟩ :=
      hoare_pivot h0 hlr hr hm1 hm2 hp
    rw [hl] at hun
    exact absurd hun (by simp)
  | case3 arr l r pivot hp a1 i j hl hj hrec ih =>
    intro h0 hr hlr
    have hprog := hoare_progress hp hl hlr
    have hlen : a1.length = arr.length :=
      (hoareLoop_main hl).1.length_eq
    obtain ⟨b, hb⟩ := ih h0 (by omega) (by omega)
    rw [hrec] at hb
    exact absurd hb (by simp)
  | case4 arr l r pivot hp a1 i j hl hj a2 hrec1 hi ih1 ih2 =>
    intro h0 hr hlr
    have hprog := hoare_progress hp hl hlr
    have hlen : a1.length = arr.length :=
      (hoareLoop_main hl).1.length_eq
    have hlen2 : a2.length = a1.length := (QuickSort_spec a2 hrec1).1.length_eq
    obtain ⟨b, hb⟩ := ih2 (by omega) (by omega) (by omega)
    refine ⟨b, ?_⟩
    rw [QuickSort_eq_left hp hl hj, hrec1]
    dsimp only
    rw [dif_pos hi]
    exact hb
  | case5 arr l r pivot hp a1 i j hl hj a2 hrec1 hi ih1 =>
    intro h0 hr hlr
    refine ⟨a2, ?_⟩
    rw [QuickSort_eq_left hp hl hj, hrec1]
    dsimp only
    rw [dif_neg hi]
  | case6 arr l r pivot hp a1 i j hl hj hi ih =>
    intro h0 hr hlr
    have hprog := hoare_progress hp hl hlr
    have hlen : a1.length = arr.length :=
      (hoareLoop_main hl).1.length_eq
    obtain ⟨b, hb⟩ := ih (by omega) (by omega) (by omega)
    refine ⟨b, ?_⟩
    rw [QuickSort_eq_right hp hl hj, dif_pos hi]
    exact hb
  | case7 arr l r pivot hp a1 i j hl hj hi =>
    intro h0 hr hlr
    refine ⟨a1, ?_⟩
    rw [QuickSort_eq_right hp hl hj, dif_neg hi]

/-- The partition loop on a single-element window `[l, l]` performs one
self-swap (which leaves the array unchanged) and exits with the scan
indices at `l + 1` and `l - 1` — not at `(l, l)`. -/
theorem hoareLoop_single {arr : List Int} {l v : Int}
    (hp : geti arr l = some v) :
    hoareLoop arr v l l = some (arr, l + 1, l - 1) := by
  obtain ⟨hb0, hbl⟩ := geti_some_bounds hp
  have hs1 : scanLt arr v l = some l := scanLt_eq_stop hp (lt_irrefl v)
  have hs2 : scanGt arr v l = some l := scanGt_eq_stop hp (lt_irrefl v)
  have hvv : v = arr[l.toNat] := by
    have hx := geti_eq_getElem hb0 hbl
    rw [hp] at hx
    simpa using Option.some.inj hx
  have hset : arr.set l.toNat v = arr := by
    rw [hvv]
    exact set_self_eq hbl
  have hseti1 : seti arr l v = some arr := by
    rw [seti_some_of_bounds v hb0 hbl, hset]
  have hstep :=
    hoareLoop_eq_swap (le_refl l) hs1 hs2 (le_refl l) hp hp hseti1 hseti1
  rw [hstep, hoareLoop_eq_exit (by omega)]

/-- Calling `QuickSort` on a single-element window returns the array
unchanged (the partition self-swaps once and both recursion guards fail). -/
theorem QuickSort_single {arr : List Int} {l : Int}
    (h0 : 0 ≤ l) (h1 : l < (arr.length : Int)) :
    QuickSort arr l l = some arr := by
  have hmid : cdiv2 (l + l) = l := by
    rw [cdiv2_nonneg_eq (l + l) (by omega)]
    omega
  obtain ⟨v, hp⟩ := Option.isSome_iff_exists.mp (geti_isSome_of_bounds h0 h1)
  have hp2 : geti arr (cdiv2 (l + l)) = some v := by
    rw [hmid]
    exact hp
  have hl2 := hoareLoop_single hp
  rw [QuickSort_eq_right hp2 hl2 (by omega), dif_neg (by omega)]

/-- Calling `QuickSort` on the inverted window `[l, l - 1]` — which the
unguarded task branch of `QuickSort_Parallel` can produce — still reads a
pivot (at index `l - 1`, or `0` when `l = 0`, because C truncates the
division toward zero), finds the loop guard false, both recursion guards
false, and returns the array unchanged. -/
theorem QuickSort_empty {arr : List Int} {l : Int}
    (h0 : 0 ≤ l) (h1 : l ≤ (arr.length : Int)) (h2 : 0 < (arr.length : Int)) :
    QuickSort arr l (l - 1) = some arr := by
  have hexit : ∀ v : Int, hoareLoop arr v l (l - 1) = some (arr, l, l - 1) :=
    fun v => hoareLoop_eq_exit (by omega)
  by_cases hl1 : 1 ≤ l
  · have hmid : cdiv2 (l + (l - 1)) = l - 1 := by
      rw [cdiv2_nonneg_eq (l + (l - 1)) (by omega)]
      omega
    have hps : (geti arr (l - 1)).isSome :=
      geti_isSome_of_bounds (by omega) (by omega)
    obtain ⟨v, hp⟩ := Option.isSome_iff_exists.mp hps
    have hp2 : geti arr (cdiv2 (l + (l - 1))) = some v := by
      rw [hmid]
      exact hp
    rw [QuickSort_eq_right hp2 (hexit v) (by omega), dif_neg (by omega)]
  · have hl0 : l = 0 := by omega
    subst hl0
    have hmid : cdiv2 (0 + (0 - 1)) = 0 := by decide
    have hps : (geti arr 0).isSome := geti_isSome_of_bounds (by omega) (by omega)
    obtain ⟨v, hp⟩ := Option.isSome_iff_exists.mp hps
    have hp2 : geti arr (cdiv2 (0 + (0 - 1))) = some v := by
      rw [hmid]
      exact hp
    rw [QuickSort_eq_right hp2 (hexit v) (by omega), dif_neg (by omega)]

/-- Window facts available whenever the partition step of a `QuickSort`
call succeeds on a window entered with `l ≤ r`. -/
theorem hoare_window {arr : List Int} {pivot l r : Int} {a1 : List Int}
    {i j : Int}
    (hp : geti arr (cdiv2 (l + r)) = some pivot)
    (hl : hoareLoop arr pivot l r = some (a1, i, j)) (hlr : l ≤ r) :
    0 ≤ l ∧ r < (arr.length : Int) ∧ l < i ∧ i ≤ r + 1 ∧ l - 1 ≤ j ∧ j < r := by
  obtain ⟨h0, hr⟩ := hoareLoop_entry_bounds hlr hl
  obtain ⟨hm1, hm2⟩ := cdiv2_bounds h0 hlr
  obtain ⟨a1', i', j', hchk', hun', p1, p2, p3, p4⟩ :=
    hoare_pivot h0 hlr hr hm1 hm2 hp
  rw [hl] at hun'
  have h' := Option.some.inj hun'
  rw [Prod.mk.injEq, Prod.mk.injEq] at h'
  obtain ⟨rfl, rfl, rfl⟩ := h'
  exact ⟨h0, hr, p1, p2, p3, p4⟩

/-- `QuickSort_Parallel` computes exactly the same function as `QuickSort`,
for every array and every pair of indices. Below the cutoff the code is
literally the guarded sequential recursion; in the task branch the two
spawned subtrees act on the windows `[left, j]` and `[i, right]` produced by
the same partition step, and the missing `left < j` / `i < right` guards are
harmless because on the degenerate windows (`j ∈ {left-1, left}`,
`i ∈ {right, right+1}`) the call is an identity. -/
theorem QuickSort_Parallel_eq_QuickSort {arr : List Int} {l r : Int} :
    QuickSort_Parallel arr l r = QuickSort arr l r := by
  induction arr, l, r using QuickSort_Parallel.induct with
  | case1 arr l r hp =>
    rw [QuickSort_Parallel_eq_pivotNone hp, QuickSort_eq_pivotNone hp]
  | case2 arr l r pivot hp hl =>
    rw [QuickSort_Parallel_eq_loopNone hp hl, QuickSort_eq_loopNone hp hl]
  | case3 arr l r pivot hp a1 i j hl hcut hj hrec ih =>
    have hrecS : QuickSort a1 l j = none := by
      rw [← ih]
      exact hrec
    rw [QuickSort_Parallel_eq_inline_left hp hl hcut hj,
      QuickSort_eq_left hp hl hj, hrec, hrecS]
  | case4 arr l r pivot hp a1 i j hl hcut hj a2 hrec1 hi ih1 ih2 =>
    have hrecS : QuickSort a1 l j = some a2 := by
      rw [← ih1]
      exact hrec1
    rw [QuickSort_Parallel_eq_inline_left hp hl hcut hj,
      QuickSort_eq_left hp hl hj, hrec1, hrecS]
    dsimp only
    rw [dif_pos hi, dif_pos hi]
    exact ih2
  | case5 arr l r pivot hp a1 i j hl hcut hj a2 hrec1 hi ih1 =>
    have hrecS : QuickSort a1 l j = some a2 := by
      rw [← ih1]
      exact hrec1
    rw [QuickSort_Parallel_eq_inline_left hp hl hcut hj,
      QuickSort_eq_left hp hl hj, hrec1, hrecS]
    dsimp only
    rw [dif_neg hi, dif_neg hi]
  | case6 arr l r pivot hp a1 i j hl hcut hj hi ih =>
    rw [QuickSort_Parallel_eq_inline_right hp hl hcut hj,
      QuickSort_eq_right hp hl hj, dif_pos hi, dif_pos hi]
    exact ih
  | case7 arr l r pivot hp a1 i j hl hcut hj hi =>
    rw [QuickSort_Parallel_eq_inline_right hp hl hcut hj,
      QuickSort_eq_right hp hl hj, dif_neg hi, dif_neg hi]
  | case8 arr l r pivot hp a1 i j hl hcut hrec ih =>
    have hlr : l ≤ r := by
      unfold Cut_Off at hcut
      omega
    obtain ⟨h0, hr, hwi1, hwi2, hwj1, hwj2⟩ := hoare_window hp hl hlr
    have hlen : a1.length = arr.length := (hoareLoop_main hl).1.length_eq
    have hrecS : QuickSort a1 l j = none := by
      rw [← ih]
      exact hrec
    exfalso
    by_cases hj : l < j
    · obtain ⟨b, hb⟩ := @QuickSort_success a1 l j h0 (by omega) (by omega)
      rw [hrecS] at hb
      exact Option.noConfusion hb
    · by_cases hjl : j = l
      · rw [hjl] at hrecS
        have hsing : QuickSort a1 l l = some a1 := QuickSort_single h0 (by omega)
        rw [hrecS] at hsing
        exact Option.noConfusion hsing
      · have hjl1 : j = l - 1 := by omega
        rw [hjl1] at hrecS
        have hemp : QuickSort a1 l (l - 1) = some a1 :=
          QuickSort_empty h0 (by omega) (by omega)
        rw [hrecS] at hemp
        exact Option.noConfusion hemp
  | case9 arr l r pivot hp a1 i j hl hcut a2 hrec1 ih1 ih2 =>
    have hlr : l ≤ r := by
      unfold Cut_Off at hcut
      omega
    obtain ⟨h0, hr, hwi1, hwi2, hwj1, hwj2⟩ := hoare_window hp hl hlr
    have hlen : a1.length = arr.length := (hoareLoop_main hl).1.length_eq
    have hrecS : QuickSort a1 l j = some a2 := by
      rw [← ih1]
      exact hrec1
    have hlen2 : a2.length = a1.length := (QuickSort_spec a2 hrecS).1.length_eq
    rw [QuickSort_Parallel_eq_task hp hl hcut, hrec1]
    dsimp only
    rw [ih2]
    by_cases hj : l < j
    · rw [QuickSort_eq_left hp hl hj, hrecS]
      dsimp only
      by_cases hi : i < r
      · rw [dif_pos hi]
      · rw [dif_neg hi]
        by_cases hir : i = r
        · subst hir
          exact QuickSort_single (by omega) (by omega)
        · have hir1 : i = r + 1 := by omega
          subst hir1
          have he := @QuickSort_empty a2 (r + 1) (by omega) (by omega)
            (by omega)
          simpa using he
    · have ha2 : a2 = a1 := by
        by_cases hjl : j = l
        · rw [hjl] at hrecS
          have hsing : QuickSort a1 l l = some a1 :=
            QuickSort_single h0 (by omega)
          rw [hrecS] at hsing
          exact Option.some.inj hsing
        · have hjl1 : j = l - 1 := by omega
          rw [hjl1] at hrecS
          have hemp : QuickSort a1 l (l - 1) = some a1 :=
            QuickSort_empty h0 (by omega) (by omega)
          rw [hrecS] at hemp
          exact Option.some.inj hemp
      subst ha2
      rw [QuickSort_eq_right hp hl hj]
      by_cases hi : i < r
      · rw [dif_pos hi]
      · rw [dif_neg hi]
        by_cases hir : i = r
        · subst hir
          exact QuickSort_single (by omega) (by omega)
        · have hir1 : i = r + 1 := by omega
          subst hir1
          have he := @QuickSort_empty a2 (r + 1) (by omega) (by omega)
            (by omega)
          simpa using he

theorem getv_nat {b : List Int} (k : Nat) (h : k < b.length) :
    getv b (k : Int) = b.get ⟨k, h⟩ := by
  unfold getv geti
  rw [if_neg (by omega)]
  have h1 : (k : Int).toNat = k := by omega
  rw [h1, List.get?_eq_get h]
  rfl

/-- A list whose adjacent positions are ordered (stated through the index
reads of the embedding) is sorted. -/
theorem sorted_of_adjacent {b : List Int}
    (h : ∀ k : Int, 0 ≤ k → k + 1 ≤ (b.length : Int) - 1 →
      getv b k ≤ getv b (k + 1)) :
    List.Sorted (· ≤ ·) b := by
  rw [List.Sorted, ← List.chain'_iff_pairwise, List.chain'_iff_get]
  intro k hk
  have hk1 : k < b.length := by omega
  have hk2 : k + 1 < b.length := by omega
  have e1 := getv_nat k hk1
  have e2 := getv_nat (k + 1) hk2
  have hcast : (((k + 1 : Nat)) : Int) = (k : Int) + 1 := by push_cast; ring
  rw [hcast] at e2
  have := h (k : Int) (by omega) (by omega)
  rw [e1, e2] at this
  exact this

/-- C1: for every nonempty array, `sort_sequential` — `QuickSort` on the
full range `[0, length - 1]` — succeeds and produces an array that is
non-decreasingly ordered and a permutation of the input (no element lost,
duplicated, or altered). -/
theorem C1_sort_sequential_correct {arr : List Int} (h : arr ≠ []) :
    ∃ b, sortSeq arr = some b ∧ b.Perm arr ∧ List.Sorted (· ≤ ·) b := by
  have hlen : 0 < arr.length := List.length_pos.mpr h
  obtain ⟨b, hb⟩ :=
    @QuickSort_success arr 0 ((arr.length : Int) - 1) (by omega) (by omega)
      (by omega)
  obtain ⟨hperm, hframe, hrange, hadj⟩ := QuickSort_spec b hb
  have hblen : b.length = arr.length := hperm.length_eq
  refine ⟨b, hb, hperm, ?_⟩
  apply sorted_of_adjacent
  intro k hk1 hk2
  exact hadj k hk1 (by omega)

theorem C1_witness :
    ([3, 1, 2] : List Int) ≠ [] ∧
      ∃ b, sortSeq [3, 1, 2] = some b ∧ b.Perm [3, 1, 2] ∧
        List.Sorted (· ≤ ·) b :=
  ⟨by decide, C1_sort_sequential_correct (by decide)⟩

/-- C2: `QuickSort_Parallel` and `QuickSort` compute the same function on
every array and every range, so `sort_parallel` on a copy of the input
produces exactly the output of `sort_sequential`. -/
theorem C2_parallel_eq_sequential :
    (∀ arr : List Int, sortPar arr = sortSeq arr) ∧
      ∀ (arr : List Int) (l r : Int),
        QuickSort_Parallel arr l r = QuickSort arr l r := by
  constructor
  · intro arr
    unfold sortPar sortSeq
    exact QuickSort_Parallel_eq_QuickSort
  · intro arr l r
    exact QuickSort_Parallel_eq_QuickSort

/-- C3: on a valid window with `left ≤ right`, the partition loop run with
the pivot `arr[(left + right) / 2]` succeeds and returns final indices with
`j < i`; every element of `[left, j]` is at most the pivot, every element of
`[i, right]` is at least the pivot, the two sub-ranges are disjoint and
together cover `[left, right]` except possibly the indices strictly between
`j` and `i`, and the array after the loop is a permutation of the array
before it. -/
theorem C3_partition_spec {arr : List Int} {l r : Int}
    (h0 : 0 ≤ l) (hlr : l ≤ r) (hr : r < (arr.length : Int)) :
    ∃ pivot a1 i j,
      geti arr (cdiv2 (l + r)) = some pivot ∧
      hoareLoop arr pivot l r = some (a1, i, j) ∧
      j < i ∧
      (∀ k, l ≤ k → k ≤ j → getv a1 k ≤ pivot) ∧
      (∀ k, i ≤ k → k ≤ r → pivot ≤ getv a1 k) ∧
      (∀ k, ¬ (k ≤ j ∧ i ≤ k)) ∧
      (∀ k, l ≤ k → k ≤ r → k ≤ j ∨ i ≤ k ∨ (j < k ∧ k < i)) ∧
      a1.Perm arr := by
  obtain ⟨hm1, hm2⟩ := cdiv2_bounds h0 hlr
  have hps : (geti arr (cdiv2 (l + r))).isSome :=
    geti_isSome_of_bounds (by omega) (by omega)
  obtain ⟨pivot, hp⟩ := Option.isSome_iff_exists.mp hps
  obtain ⟨a1, i, j, hchk, hun, p1, p2, p3, p4⟩ :=
    hoare_pivot h0 hlr hr hm1 hm2 hp
  obtain ⟨hperm, hlt, hm1', hm2', hframe, hle, hge, hrangev⟩ :=
    hoareLoop_main hun
  refine ⟨pivot, a1, i, j, hp, hun, hlt, ?_, ?_, ?_, ?_, hperm⟩
  · intro k hk1 hk2
    exact hle k hk1 (by omega)
  · intro k hk1 hk2
    exact hge k (by omega) hk2
  · intro k hk
    omega
  · intro k hk1 hk2
    omega

theorem C3_witness :
    (0 : Int) ≤ 0 ∧ (0 : Int) ≤ 2 ∧ (2 : Int) < (([5, 1, 4] : List Int).length : Int) ∧
      (∃ pivot a1 i j,
        geti [5, 1, 4] (cdiv2 (0 + 2)) = some pivot ∧
        hoareLoop [5, 1, 4] pivot 0 2 = some (a1, i, j) ∧
        j < i ∧
        (∀ k, 0 ≤ k → k ≤ j → getv a1 k ≤ pivot) ∧
        (∀ k, i ≤ k → k ≤ 2 → pivot ≤ getv a1 k) ∧
        (∀ k, ¬ (k ≤ j ∧ i ≤ k)) ∧
        (∀ k, 0 ≤ k → k ≤ 2 → k ≤ j ∨ i ≤ k ∨ (j < k ∧ k < i)) ∧
        a1.Perm [5, 1, 4]) :=
  ⟨by decide, by decide, by decide,
    C3_partition_spec (by decide) (by decide) (by decide)⟩

/-- C4: on a valid window with `left ≤ right`, both `QuickSort` and
`QuickSort_Parallel` terminate with a result (the embedding is a total
function, accepted by well-founded recursion on the window size because each
partition step makes strict progress, and on valid windows it returns
`some`). This includes arrays whose elements are all equal. -/
theorem C4_termination {arr : List Int} {l r : Int}
    (h0 : 0 ≤ l) (hlr : l ≤ r) (hr : r < (arr.length : Int)) :
    (∃ b, QuickSort arr l r = some b) ∧
      ∃ b, QuickSort_Parallel arr l r = some b := by
  obtain ⟨b, hb⟩ := QuickSort_success h0 hr hlr
  refine ⟨⟨b, hb⟩, ⟨b, ?_⟩⟩
  rw [QuickSort_Parallel_eq_QuickSort]
  exact hb

theorem C4_witness :
    (0 : Int) ≤ 0 ∧ (0 : Int) ≤ 3 ∧
      (3 : Int) < (([7, 7, 7, 7] : List Int).length : Int) ∧
      ((∃ b, QuickSort [7, 7, 7, 7] 0 3 = some b) ∧
        ∃ b, QuickSort_Parallel [7, 7, 7, 7] 0 3 = some b) :=
  ⟨by decide, by decide, by decide,
    C4_termination (by decide) (by decide) (by decide)⟩

/-- C5: below the cutoff (`right - left < Cut_Off`) the parallel sorter
recurses inline with the same guards as the sequential sorter, and its
effect on the array is identical to `QuickSort` on the same range. -/
theorem C5_below_cutoff_inline {arr : List Int} {l r : Int}
    (h : r - l < Cut_Off) :
    QuickSort_Parallel arr l r = QuickSort arr l r :=
  QuickSort_Parallel_eq_QuickSort

theorem C5_witness :
    (1 : Int) - 0 < Cut_Off ∧
      QuickSort_Parallel [2, 1] 0 1 = QuickSort [2, 1] 0 1 :=
  ⟨by decide, C5_below_cutoff_inline (by decide)⟩

/-- C6: on a valid window, the pivot index `(left + right) / 2` lies inside
`[left, right]`, and the whole partition loop — re-run with every read and
write instrumented to fail outside `[left, right]` — succeeds and computes
the same result as the uninstrumented loop; moreover nothing outside the
window is mutated. So every access of the partition step stays inside
`[left, right]` and the only mutations are in-place swaps within it. -/
theorem C6_partition_access_safety {arr : List Int} {l r : Int}
    (h0 : 0 ≤ l) (hlr : l ≤ r) (hr : r < (arr.length : Int)) :
    l ≤ cdiv2 (l + r) ∧ cdiv2 (l + r) ≤ r ∧
      ∃ pivot t,
        geti arr (cdiv2 (l + r)) = some pivot ∧
        hoareLoopChk l r arr pivot l r = some t ∧
        hoareLoop arr pivot l r = some t ∧
        ∀ k, k < l ∨ r < k → geti t.1 k = geti arr k := by
  obtain ⟨hm1, hm2⟩ := cdiv2_bounds h0 hlr
  have hps : (geti arr (cdiv2 (l + r))).isSome :=
    geti_isSome_of_bounds (by omega) (by omega)
  obtain ⟨pivot, hp⟩ := Option.isSome_iff_exists.mp hps
  obtain ⟨a1, i, j, hchk, hun, p1, p2, p3, p4⟩ :=
    hoare_pivot h0 hlr hr hm1 hm2 hp
  obtain ⟨hperm, hlt, hm1', hm2', hframe, hle, hge, hrangev⟩ :=
    hoareLoop_main hun
  exact ⟨hm1, hm2, pivot, (a1, i, j), hp, hchk, hun, hframe⟩

theorem C6_witness :
    (0 : Int) ≤ 0 ∧ (0 : Int) ≤ 2 ∧
      (2 : Int) < (([9, 3, 6] : List Int).length : Int) ∧
      (0 ≤ cdiv2 (0 + 2) ∧ cdiv2 (0 + 2) ≤ 2 ∧
        ∃ pivot t,
          geti [9, 3, 6] (cdiv2 (0 + 2)) = some pivot ∧
          hoareLoopChk 0 2 [9, 3, 6] pivot 0 2 = some t ∧
          hoareLoop [9, 3, 6] pivot 0 2 = some t ∧
          ∀ k, k < 0 ∨ 2 < k → geti t.1 k = geti [9, 3, 6] k) := by
  refine ⟨by decide, by decide, by decide, ?_⟩
  have h := @C6_partition_access_safety [9, 3, 6] 0 2 (by decide) (by decide)
    (by decide)
  exact h

/-- C7 counterexample: at `left = right = 0` on the array `[5]`, the
partition loop does *not* return `i = j = 0`: it performs one self-swap
iteration and returns `i = 1`, `j = -1`. -/
theorem C7_counterexample :
    hoareLoop [5] 5 0 0 = some ([5], 1, -1) ∧
      ¬ ((1 : Int) = 0 ∧ (-1 : Int) = 0) := by
  constructor
  · have hp : geti [5] 0 = some 5 := by decide
    have h := hoareLoop_single hp
    norm_num at h
    exact h
  · decide

/-- C7 amended: when called with `left = right = l`, the partition loop
leaves the array unchanged but exits with scan indices `i = l + 1` and
`j = l - 1` (one self-swap iteration, not a no-op scan ending at
`i = j = l`); both recursion guards `left < j` and `i < right` then fail. -/
theorem C7_amended_single_window {arr : List Int} {l pivot : Int}
    (hp : geti arr l = some pivot) :
    hoareLoop arr pivot l l = some (arr, l + 1, l - 1) ∧
      ¬ l < l - 1 ∧ ¬ l + 1 < l := by
  exact ⟨hoareLoop_single hp, by omega, by omega⟩

theorem C7_amended_witness :
    geti [5] 0 = some 5 ∧
      (hoareLoop [5] 5 0 0 = some ([5], 0 + 1, 0 - 1) ∧
        ¬ (0 : Int) < 0 - 1 ∧ ¬ (0 : Int) + 1 < 0) :=
  ⟨by decide, C7_amended_single_window (by decide)⟩

/-- C8 counterexample: sorting an empty array does not return it unchanged —
the unguarded pivot read `arr[(0 + (0 - 1)) / 2] = arr[0]` is out of range
on an empty array (undefined behaviour, modelled as `none`). -/
theorem C8_counterexample : sortSeq ([] : List Int) = none := by
  unfold sortSeq
  exact QuickSort_eq_pivotNone (by decide)

/-- C8 amended: a single-element array is returned unchanged by both entry
points (no recursion happens: both guards fail after the self-swap), but an
empty array makes both entry points read `arr[0]` out of range, modelled as
`none`, rather than returning the array unchanged. -/
theorem C8_amended_boundary_cases :
    (∀ x : Int, sortSeq [x] = some [x]) ∧
      (∀ x : Int, sortPar [x] = some [x]) ∧
      sortSeq ([] : List Int) = none ∧
      sortPar ([] : List Int) = none := by
  have hone : ∀ x : Int, sortSeq [x] = some [x] := by
    intro x
    unfold sortSeq
    have hlen : (([x] : List Int).length : Int) - 1 = 0 := by simp
    rw [hlen]
    exact QuickSort_single (by omega) (by simp)
  refine ⟨hone, ?_, ?_, ?_⟩
  · intro x
    unfold sortPar
    rw [QuickSort_Parallel_eq_QuickSort]
    have hx := hone x
    unfold sortSeq at hx
    exact hx
  · unfold sortSeq
    exact QuickSort_eq_pivotNone (by decide)
  · unfold sortPar
    rw [QuickSort_Parallel_eq_QuickSort]
    exact QuickSort_eq_pivotNone (by decide)

/-- C10: on a valid window, the full recursive sort — sequential or
parallel — leaves every element at an index outside `[left, right]`
unchanged. -/
theorem C10_frame {arr : List Int} {l r : Int}
    (h0 : 0 ≤ l) (hlr : l ≤ r) (hr : r < (arr.length : Int)) :
    (∀ b, QuickSort arr l r = some b →
      ∀ k, k < l ∨ r < k → geti b k = geti arr k) ∧
      ∀ b, QuickSort_Parallel arr l r = some b →
        ∀ k, k < l ∨ r < k → geti b k = geti arr k := by
  constructor
  · intro b hb
    exact (QuickSort_spec b hb).2.1
  · intro b hb
    rw [QuickSort_Parallel_eq_QuickSort] at hb
    exact (QuickSort_spec b hb).2.1

theorem C10_witness :
    (0 : Int) ≤ 0 ∧ (0 : Int) ≤ 1 ∧
      (1 : Int) < (([4, 2, 9] : List Int).length : Int) ∧
      ((∀ b, QuickSort [4, 2, 9] 0 1 = some b →
        ∀ k, k < 0 ∨ 1 < k → geti b k = geti [4, 2, 9] k) ∧
        ∀ b, QuickSort_Parallel [4, 2, 9] 0 1 = some b →
          ∀ k, k < 0 ∨ 1 < k → geti b k = geti [4, 2, 9] k) :=
  ⟨by decide, by decide, by decide,
    C10_frame (by decide) (by decide) (by decide)⟩
